import Mathlib

/-
Verification of the rust-neural-net training core against its specification.

Shallow embedding conventions:
* f32 and f64 values are modelled as exact rationals; the claims under
  study are structural and algebraic, and the source tests exercise them
  on small exactly representable values.
* The f32 NAN sentinel used by Stats for min, max and the empty mean is
  modelled by Option (none stands for NAN); a comparison against a NAN
  value is false, matching IEEE semantics used by the source.
* A Rust assertion or debug assertion failure, and usize underflow
  (which panics in debug builds), are modelled by an Option or by a
  dedicated none result.
* Mutation is modelled by state passing: a method on a mutable receiver
  becomes a function returning the updated value.
-/

namespace RustNN

/-! ## Stats (src/stats.rs) -/

/-- Error statistics accumulator from src/stats.rs. The min and max
fields start as f32 NAN, modelled by none. -/
structure Stats where
  sum : ℚ
  count : Nat
  max : Option ℚ
  min : Option ℚ
  var_m : ℚ
  var_s : ℚ
deriving Repr, DecidableEq

/-- Translation of Stats::new. -/
def Stats.new : Stats :=
  { sum := 0, count := 0, max := none, min := none, var_m := 0, var_s := 0 }

/-- Translation of Stats::report. The if branches on is_nan follow the
source; a none min or max models the NAN starting value. -/
def Stats.report (s : Stats) (value : ℚ) : Stats :=
  let sum := s.sum + value
  let count := s.count + 1
  let min : Option ℚ := match s.min with
    | none => some value
    | some m => if value < m then some value else some m
  let max : Option ℚ := match s.max with
    | none => some value
    | some m => if m < value then some value else some m
  let val_minus_m := value - s.var_m
  let var_m := s.var_m + val_minus_m / (count : ℚ)
  let var_s := s.var_s + val_minus_m * (value - var_m)
  { sum := sum, count := count, max := max, min := min, var_m := var_m, var_s := var_s }

/-- Translation of Stats::mean, sum divided by count. In the source the
count zero case yields an f64 NAN; this is modelled by none. -/
def Stats.mean (s : Stats) : Option ℚ :=
  if s.count = 0 then none else some (s.sum / (s.count : ℚ))

/-- Translation of Stats::reset: every field returns to its initial value. -/
def Stats.reset (_ : Stats) : Stats := Stats.new

/-! ## CompletionFn (src/func/completion.rs) -/

/-- Completion predicate configuration from src/func/completion.rs.
Durations are modelled as rationals. -/
structure CompletionFn where
  max_epoch : Option Nat
  max_duration : Option ℚ
  target_avg_error : ℚ
deriving Repr, DecidableEq

/-- Translation of CompletionFn::stop_after_epoch. -/
def CompletionFn.stop_after_epoch (epoch : Nat) : CompletionFn :=
  { max_epoch := some epoch, max_duration := none, target_avg_error := 0 }

/-- Translation of CompletionFn::stop_after_duration. -/
def CompletionFn.stop_after_duration (duration : ℚ) : CompletionFn :=
  { max_epoch := none, max_duration := some duration, target_avg_error := 0 }

/-- The first condition of should_stop_training: target_avg_error is at
least the mean. A NAN mean (none) compares false, as for f64. -/
def CompletionFn.targetCond (f : CompletionFn) (error_stats : Stats) : Bool :=
  match error_stats.mean with
  | none => false
  | some m => decide (m ≤ f.target_avg_error)

/-- The wall clock condition of should_stop_training. The elapsed
argument stands for the measured duration_since value; none models a
clock error, for which the source substitutes max_duration via
unwrap_or, making the condition hold. -/
def CompletionFn.durationCond (f : CompletionFn) (elapsed : Option ℚ) : Bool :=
  match f.max_duration with
  | none => false
  | some max_duration => decide (max_duration ≤ elapsed.getD max_duration)

/-- Translation of CompletionFn::should_stop_training. The conditions
are tested in the source order: target mean error, then the epoch
budget, then the wall clock budget. The epoch branch computes
max_batch_count - 1 on a usize; when max_batch_count is zero this
underflows (a panic in debug builds), modelled by none. -/
def CompletionFn.should_stop_training (f : CompletionFn) (epoch : Nat)
    (elapsed : Option ℚ) (error_stats : Stats) : Option Bool :=
  if f.targetCond error_stats then some true
  else
    match f.max_epoch with
    | some max_batch_count =>
        if max_batch_count = 0 then none
        else if max_batch_count - 1 ≤ epoch then some true
        else some (f.durationCond elapsed)
    | none => some (f.durationCond elapsed)

/-- The epoch-budget condition of should_stop_training, as a standalone
boolean for stating the disjunctive characterization. -/
def CompletionFn.epochCond (f : CompletionFn) (epoch : Nat) : Bool :=
  match f.max_epoch with
  | none => false
  | some k => decide (k - 1 ≤ epoch)

/-- C5 (amended): should_stop_training returns true exactly when one of
its three conditions holds, tested in the source priority order, for any
configuration whose epoch bound is not zero (a zero bound underflows the
usize subtraction). A predicate built by stop_after_epoch k with k at
least one returns true exactly when epoch is at least k - 1, provided
the error mean is defined and strictly above the zero target error; one
built by stop_after_duration d returns true whenever the elapsed wall
clock time is at least d, irrespective of the error statistics. -/
theorem completion_should_stop_spec :
    (∀ (f : CompletionFn) (epoch : Nat) (elapsed : Option ℚ) (stats : Stats),
        f.max_epoch ≠ some 0 →
        f.should_stop_training epoch elapsed stats =
          some (f.targetCond stats || f.epochCond epoch || f.durationCond elapsed)) ∧
    (∀ (k : Nat), 1 ≤ k → ∀ (epoch : Nat) (elapsed : Option ℚ) (stats : Stats) (m : ℚ),
        stats.mean = some m → 0 < m →
        (CompletionFn.stop_after_epoch k).should_stop_training epoch elapsed stats =
          some (decide (k - 1 ≤ epoch))) ∧
    (∀ (d : ℚ) (epoch : Nat) (elapsed : Option ℚ) (stats : Stats),
        (∀ e, elapsed = some e → d ≤ e) →
        (CompletionFn.stop_after_duration d).should_stop_training epoch elapsed stats =
          some true) := by
  refine ⟨?_, ?_, ?_⟩
  · intro f epoch elapsed stats hk
    unfold CompletionFn.should_stop_training CompletionFn.epochCond
    cases htc : f.targetCond stats
    · cases hme : f.max_epoch with
      | none => simp
      | some k =>
          have hk0 : k ≠ 0 := fun h => hk (by rw [hme, h])
          by_cases hle : k - 1 ≤ epoch <;> simp [hk0, hle]
    · simp
  · intro k hk epoch elapsed stats m hm hmpos
    have htc : (CompletionFn.stop_after_epoch k).targetCond stats = false := by
      unfold CompletionFn.targetCond
      rw [hm]
      simp only [CompletionFn.stop_after_epoch, decide_eq_false_iff_not]
      exact not_le.mpr hmpos
    have hk0 : k ≠ 0 := Nat.one_le_iff_ne_zero.mp hk
    unfold CompletionFn.should_stop_training
    rw [htc]
    by_cases hle : k - 1 ≤ epoch <;>
      simp [CompletionFn.stop_after_epoch, CompletionFn.durationCond, hk0, hle]
  · intro d epoch elapsed stats helapsed
    have hdc : (CompletionFn.stop_after_duration d).durationCond elapsed = true := by
      unfold CompletionFn.durationCond
      cases elapsed with
      | none => simp [CompletionFn.stop_after_duration]
      | some e => simp [CompletionFn.stop_after_duration, helapsed e rfl]
    unfold CompletionFn.should_stop_training
    cases htc : (CompletionFn.stop_after_duration d).targetCond stats
    · simp only [Bool.false_eq_true, if_false, CompletionFn.stop_after_duration]
      exact congrArg some hdc
    · simp

/-- C5 witness: the amended theorem applied at concrete inputs. -/
theorem completion_should_stop_spec_witness :
    (CompletionFn.stop_after_epoch 3).should_stop_training 5 none (Stats.new.report 2) =
      some (decide (3 - 1 ≤ 5)) :=
  completion_should_stop_spec.2.1 3 (by norm_num) 5 none (Stats.new.report 2) 2
    (by norm_num [Stats.mean, Stats.report, Stats.new]) (by norm_num)

/-- C5 counterexample: the claim as stated says a predicate built by
stop_after_epoch k returns true exactly when epoch is at least k - 1.
With k = 5 and epoch = 0 the code nevertheless returns true when the
error statistics hold a single reported value of zero, because the
always-first target-mean check fires on target_avg_error zero at least
the mean zero. -/
theorem completion_stop_after_epoch_cex :
    (CompletionFn.stop_after_epoch 5).should_stop_training 0 none (Stats.new.report 0) =
        some true
      ∧ ¬ (5 - 1 ≤ 0) := by
  constructor
  · have htc : (CompletionFn.stop_after_epoch 5).targetCond (Stats.new.report 0) = true := by
      unfold CompletionFn.targetCond
      norm_num [Stats.mean, Stats.report, Stats.new, CompletionFn.stop_after_epoch]
    unfold CompletionFn.should_stop_training
    rw [htc]
    simp
  · decide

/-! ## RowBuffer (src/buffer/row.rs) -/

/-- Row arena from src/buffer/row.rs: one flat buffer plus one
(offset, size) pair per row. -/
structure RowBuffer where
  buffer : List ℚ
  row_offsets_and_sizes : List (Nat × Nat)
deriving Repr, DecidableEq

/-- Offset-building loop of RowBuffer::new_with_row_sizes: pushes
(offset, size) and advances offset by the size. -/
def buildRowOffsets (offset : Nat) : List Nat → List (Nat × Nat)
  | [] => []
  | s :: rest => (offset, s) :: buildRowOffsets (offset + s) rest

/-- Translation of RowBuffer::new_with_row_sizes. The source asserts
that the size list is non-empty; the failing assertion is modelled by
none. -/
def RowBuffer.new_with_row_sizes (initial_value : ℚ) (row_sizes : List Nat) :
    Option RowBuffer :=
  if 0 < row_sizes.length then
    some { buffer := List.replicate row_sizes.sum initial_value,
           row_offsets_and_sizes := buildRowOffsets 0 row_sizes }
  else none

/-- Translation of RowBuffer::num_rows. -/
def RowBuffer.num_rows (b : RowBuffer) : Nat := b.row_offsets_and_sizes.length

/-- Translation of RowBuffer::get_row: the slice of the backing buffer
starting at the row offset with the row size. -/
def RowBuffer.get_row (b : RowBuffer) (row : Nat) : List ℚ :=
  let p := b.row_offsets_and_sizes.getD row (0, 0)
  (b.buffer.drop p.1).take p.2

/-- Translation of RowBuffer::add; the source asserts equal backing
lengths, modelled by none. -/
def RowBuffer.add (b other : RowBuffer) : Option RowBuffer :=
  if b.buffer.length = other.buffer.length then
    some { b with buffer := List.zipWith (fun x y => x + y) b.buffer other.buffer }
  else none

/-- Translation of RowBuffer::add_with_multiplier. -/
def RowBuffer.add_with_multiplier (b other : RowBuffer) (multiplier : ℚ) :
    Option RowBuffer :=
  if b.buffer.length = other.buffer.length then
    some { b with buffer := List.zipWith (fun x y => x + y * multiplier) b.buffer other.buffer }
  else none

/-- Translation of RowBuffer::subtract. -/
def RowBuffer.subtract (b other : RowBuffer) : Option RowBuffer :=
  if b.buffer.length = other.buffer.length then
    some { b with buffer := List.zipWith (fun x y => x - y) b.buffer other.buffer }
  else none

theorem buildRowOffsets_length (S : List Nat) :
    ∀ o : Nat, (buildRowOffsets o S).length = S.length := by
  induction S with
  | nil => intro o; rfl
  | cons s rest ih => intro o; simp [buildRowOffsets, ih]

theorem buildRowOffsets_getD (S : List Nat) :
    ∀ o i : Nat, i < S.length →
      (buildRowOffsets o S).getD i (0, 0) = (o + (S.take i).sum, S.getD i 0) := by
  induction S with
  | nil => intro o i h; exact absurd h (by simp)
  | cons s rest ih =>
      intro o i h
      cases i with
      | zero => simp [buildRowOffsets]
      | succ j =>
          have hj : j < rest.length := by simpa using h
          simp only [buildRowOffsets, List.getD_cons_succ, List.take_succ_cons,
            List.sum_cons, List.getD_cons_succ]
          rw [ih (o + s) j hj]
          have : o + s + (rest.take j).sum = o + (s + (rest.take j).sum) := by omega
          rw [this]

theorem sum_take_add_getD_le (S : List Nat) (i : Nat) (h : i < S.length) :
    (S.take i).sum + S.getD i 0 ≤ S.sum := by
  have h1 : (S.take (i + 1)).sum ≤ S.sum := by
    conv_rhs => rw [← List.take_append_drop (i + 1) S]
    rw [List.sum_append]
    omega
  have h2 : S.take (i + 1) = S.take i ++ S[i]?.toList := List.take_succ
  have h3 : S[i]? = some (S.getD i 0) := by
    simp [List.getD_eq_getElem?_getD, List.getElem?_eq_getElem h]
  rw [h2, List.sum_append, h3] at h1
  simpa using h1

/-- C6: building an arena from a non-empty size list S yields num_rows
equal to the length of S, every row of its declared size filled with the
initial value, rows located at the prefix-sum offsets (hence contiguous,
non-overlapping and covering the backing buffer of length sum S
exactly), and construction from an empty list fails. -/
theorem rowbuffer_new_with_row_sizes_spec :
    (∀ (v : ℚ) (S : List Nat), S ≠ [] →
      ∃ b, RowBuffer.new_with_row_sizes v S = some b ∧
        b.num_rows = S.length ∧
        b.buffer.length = S.sum ∧
        (∀ i, i < S.length →
          b.row_offsets_and_sizes.getD i (0, 0) = ((S.take i).sum, S.getD i 0) ∧
          b.get_row i = List.replicate (S.getD i 0) v ∧
          (b.get_row i).length = S.getD i 0) ∧
        (∀ i, i + 1 < S.length →
          (b.row_offsets_and_sizes.getD (i + 1) (0, 0)).1 =
            (b.row_offsets_and_sizes.getD i (0, 0)).1 +
              (b.row_offsets_and_sizes.getD i (0, 0)).2)) ∧
    (∀ v : ℚ, RowBuffer.new_with_row_sizes v [] = none) := by
  constructor
  · intro v S hS
    have hlen : 0 < S.length := List.length_pos.mpr hS
    refine ⟨{ buffer := List.replicate S.sum v,
              row_offsets_and_sizes := buildRowOffsets 0 S },
      by simp [RowBuffer.new_with_row_sizes, hlen], ?_, ?_, ?_, ?_⟩
    · simp [RowBuffer.num_rows, buildRowOffsets_length]
    · simp
    · intro i hi
      have hoff := buildRowOffsets_getD S 0 i hi
      rw [Nat.zero_add] at hoff
      refine ⟨hoff, ?_, ?_⟩
      · simp only [RowBuffer.get_row, hoff]
        rw [List.drop_replicate, List.take_replicate]
        congr 1
        have := sum_take_add_getD_le S i hi
        omega
      · simp only [RowBuffer.get_row, hoff]
        rw [List.drop_replicate, List.take_replicate, List.length_replicate]
        have := sum_take_add_getD_le S i hi
        omega
    · intro i hi
      have hi1 : i < S.length := by omega
      have h1 := buildRowOffsets_getD S 0 i hi1
      have h2 := buildRowOffsets_getD S 0 (i + 1) hi
      rw [Nat.zero_add] at h1 h2
      rw [h1, h2]
      simp only
      rw [List.take_succ]
      have h3 : S[i]? = some (S.getD i 0) := by
        simp [List.getD_eq_getElem?_getD, List.getElem?_eq_getElem hi1]
      rw [h3]
      simp
  · intro v
    simp [RowBuffer.new_with_row_sizes]

/-- C6 witness: the theorem applied to the concrete size list of the
source test, sizes 1, 0, 10, 2 with zero-sized rows permitted. -/
theorem rowbuffer_new_with_row_sizes_spec_witness :
    ∃ b, RowBuffer.new_with_row_sizes (5 : ℚ) [1, 0, 10, 2] = some b ∧
      b.num_rows = [1, 0, 10, 2].length ∧
      b.buffer.length = [1, 0, 10, 2].sum ∧
      (∀ i, i < [1, 0, 10, 2].length →
        b.row_offsets_and_sizes.getD i (0, 0) =
          (([1, 0, 10, 2].take i).sum, [1, 0, 10, 2].getD i 0) ∧
        b.get_row i = List.replicate ([1, 0, 10, 2].getD i 0) 5 ∧
        (b.get_row i).length = [1, 0, 10, 2].getD i 0) ∧
      (∀ i, i + 1 < [1, 0, 10, 2].length →
        (b.row_offsets_and_sizes.getD (i + 1) (0, 0)).1 =
          (b.row_offsets_and_sizes.getD i (0, 0)).1 +
            (b.row_offsets_and_sizes.getD i (0, 0)).2) :=
  rowbuffer_new_with_row_sizes_spec.1 5 [1, 0, 10, 2] (by decide)

theorem zipWith_add_sub_cancel :
    ∀ a b : List ℚ, a.length = b.length →
      List.zipWith (fun x y => x - y) (List.zipWith (fun x y => x + y) a b) b = a := by
  intro a
  induction a with
  | nil => intro b _; simp
  | cons x xs ih =>
      intro b hb
      cases b with
      | nil => simp at hb
      | cons y ys =>
          simp only [List.zipWith_cons_cons, List.cons.injEq]
          exact ⟨by ring, ih ys (by simpa using hb)⟩

theorem zipWith_add_self (a : List ℚ) :
    List.zipWith (fun x y => x + y) a a = a.map (fun x => 2 * x) := by
  induction a with
  | nil => simp
  | cons x xs ih => simp only [List.zipWith_cons_cons, List.map_cons, ih]; ring_nf

theorem zipWith_addmul_two_self (a : List ℚ) :
    List.zipWith (fun x y => x + y * 2) a a = a.map (fun x => 3 * x) := by
  induction a with
  | nil => simp
  | cons x xs ih => simp only [List.zipWith_cons_cons, List.map_cons, ih]; ring_nf

theorem zipWith_map_two_sub_self (a : List ℚ) :
    List.zipWith (fun x y => x - y) (a.map (fun x => 2 * x)) a = a := by
  induction a with
  | nil => simp
  | cons x xs ih => simp only [List.map_cons, List.zipWith_cons_cons, ih]; ring_nf

/-- C7: for arenas of equal backing length, add then subtract of the
same other arena restores the original arena; and for arenas holding
identical contents, add yields twice the contents, the following
subtract restores them, and add_with_multiplier with factor two then
yields three times the contents, matching the source test expectations. -/
theorem rowbuffer_add_subtract_round_trip :
    (∀ A B : RowBuffer, A.buffer.length = B.buffer.length →
      ∃ C, A.add B = some C ∧ C.subtract B = some A) ∧
    (∀ A B : RowBuffer, A.buffer = B.buffer →
      ∃ C1 C2 C3,
        A.add B = some C1 ∧ C1.buffer = A.buffer.map (fun x => 2 * x) ∧
        C1.subtract B = some C2 ∧ C2 = A ∧
        C2.add_with_multiplier B 2 = some C3 ∧
        C3.buffer = A.buffer.map (fun x => 3 * x)) := by
  constructor
  · intro A B hlen
    refine ⟨{ A with buffer := List.zipWith (fun x y => x + y) A.buffer B.buffer },
      by simp [RowBuffer.add, hlen], ?_⟩
    have hlen2 : (List.zipWith (fun x y : ℚ => x + y) A.buffer B.buffer).length =
        B.buffer.length := by
      rw [List.length_zipWith, hlen, Nat.min_self]
    simp only [RowBuffer.subtract, hlen2, if_pos]
    rw [zipWith_add_sub_cancel A.buffer B.buffer hlen]
  · intro A B hbuf
    have hlen : A.buffer.length = B.buffer.length := by rw [hbuf]
    refine ⟨{ A with buffer := A.buffer.map (fun x => 2 * x) }, A,
      { A with buffer := A.buffer.map (fun x => 3 * x) },
      ?_, rfl, ?_, rfl, ?_, rfl⟩
    · simp only [RowBuffer.add, hlen, if_pos]
      rw [← hbuf, zipWith_add_self]
    · have hl2 : (A.buffer.map (fun x : ℚ => 2 * x)).length = B.buffer.length := by
        rw [List.length_map, hlen]
      simp only [RowBuffer.subtract, hl2, if_pos]
      rw [← hbuf, zipWith_map_two_sub_self]
    · simp only [RowBuffer.add_with_multiplier, hlen, if_pos]
      rw [← hbuf, zipWith_addmul_two_self]

/-- C7 witness: the theorem applied to two concrete arenas; the first
part at arenas of equal length with different contents, the second at
arenas with identical contents. -/
theorem rowbuffer_add_subtract_round_trip_witness :
    (∃ C, RowBuffer.add ⟨[1, 2, 3], [(0, 3)]⟩ ⟨[4, 5, 6], [(0, 3)]⟩ = some C ∧
      C.subtract ⟨[4, 5, 6], [(0, 3)]⟩ = some ⟨[1, 2, 3], [(0, 3)]⟩) ∧
    (∃ C1 C2 C3,
      RowBuffer.add ⟨[1, 2], [(0, 2)]⟩ ⟨[1, 2], [(0, 2)]⟩ = some C1 ∧
      C1.buffer = [1, 2].map (fun x => 2 * x) ∧
      C1.subtract ⟨[1, 2], [(0, 2)]⟩ = some C2 ∧
      C2 = (⟨[1, 2], [(0, 2)]⟩ : RowBuffer) ∧
      C2.add_with_multiplier ⟨[1, 2], [(0, 2)]⟩ 2 = some C3 ∧
      C3.buffer = [1, 2].map (fun x => 3 * x)) :=
  ⟨rowbuffer_add_subtract_round_trip.1 ⟨[1, 2, 3], [(0, 3)]⟩ ⟨[4, 5, 6], [(0, 3)]⟩ rfl,
   rowbuffer_add_subtract_round_trip.2 ⟨[1, 2], [(0, 2)]⟩ ⟨[1, 2], [(0, 2)]⟩ rfl⟩

/-! ## PreparedDataSet (src/data.rs) -/

/-- Prepared dataset view from src/data.rs: shared flat storage plus a
half-open element range, with row and column bookkeeping. The field
named end in the source is called endPos here since end is reserved. -/
structure PreparedDataSet where
  data : List ℚ
  offset : Nat
  endPos : Nat
  num_cols : Nat
  num_rows : Nat
  dependent_cols : Nat
  independent_cols : Nat
deriving Repr, DecidableEq

/-- Default dataset used only as the getD fallback in statements. -/
def dsEmpty : PreparedDataSet :=
  { data := [], offset := 0, endPos := 0, num_cols := 0, num_rows := 0,
    dependent_cols := 0, independent_cols := 0 }

/-- Translation of PreparedDataSet::make_partition. The source assertion
offset less-or-equal end less-or-equal self.end is modelled by none on
failure. The data field is the same shared storage (an Arc clone in the
source, no copy). -/
def PreparedDataSet.make_partition (d : PreparedDataSet) (row_offset rows : Nat) :
    Option PreparedDataSet :=
  let offset := d.offset + row_offset * d.num_cols
  let e := offset + rows * d.num_cols
  if offset ≤ e ∧ e ≤ d.endPos then
    some { data := d.data, offset := offset, endPos := e, num_cols := d.num_cols,
           num_rows := rows, dependent_cols := d.dependent_cols,
           independent_cols := d.independent_cols }
  else none

/-- Loop of PreparedDataSet::partition: pushes count partitions of
target rows taken from the tail of the range, walking end_row downward,
then pushes the final partition holding rows zero up to the remaining
end_row. The usize subtraction end_row - target panics on underflow in
debug builds, modelled by none. -/
def partitionLoop (d : PreparedDataSet) (target : Nat) :
    Nat → Nat → Option (List PreparedDataSet)
  | 0, end_row => (d.make_partition 0 end_row).map (fun p => [p])
  | k + 1, end_row =>
      if target ≤ end_row then
        (d.make_partition (end_row - target) target).bind (fun p =>
          (partitionLoop d target k (end_row - target)).map (fun rest => p :: rest))
      else none

/-- Translation of PreparedDataSet::partition. The source asserts
0 < n < num_rows; target rows per partition is num_rows / n. -/
def PreparedDataSet.partition (d : PreparedDataSet) (n : Nat) :
    Option (List PreparedDataSet) :=
  if 0 < n ∧ n < d.num_rows then
    partitionLoop d (d.num_rows / n) (n - 1) d.num_rows
  else none

/-- Successful result of make_partition, for stating the partition
characterization. -/
def mkPart (d : PreparedDataSet) (row_offset rows : Nat) : PreparedDataSet :=
  { data := d.data, offset := d.offset + row_offset * d.num_cols,
    endPos := d.offset + row_offset * d.num_cols + rows * d.num_cols,
    num_cols := d.num_cols, num_rows := rows,
    dependent_cols := d.dependent_cols, independent_cols := d.independent_cols }

/-- Starting row (relative to the parent dataset) of the partition at
index k of the returned vector: the vector is built from the tail of the
row range backwards, so index k covers rows starting at
num_rows - (k+1) * target, and the last vector entry starts at row zero. -/
def startRow (R t P k : Nat) : Nat :=
  if k < P - 1 then R - (k + 1) * t else 0

/-- Row count of the partition at index k of the returned vector. -/
def partRows (R t P k : Nat) : Nat :=
  if k < P - 1 then t else R - (P - 1) * t

/-- Expected value of the partition loop, used in the refinement proof. -/
def partsList (d : PreparedDataSet) (t : Nat) : Nat → Nat → List PreparedDataSet
  | 0, e => [mkPart d 0 e]
  | k + 1, e => mkPart d (e - t) t :: partsList d t k (e - t)

theorem partsList_length (d : PreparedDataSet) (t : Nat) :
    ∀ c e, (partsList d t c e).length = c + 1 := by
  intro c
  induction c with
  | zero => intro e; rfl
  | succ k ih => intro e; simp [partsList, ih]

theorem partitionLoop_eq_partsList (d : PreparedDataSet)
    (hinv : d.endPos = d.offset + d.num_rows * d.num_cols) (t : Nat) :
    ∀ c e, (c + 1) * t ≤ e → e ≤ d.num_rows →
      partitionLoop d t c e = some (partsList d t c e) := by
  intro c
  induction c with
  | zero =>
      intro e _ he
      have hcheck : d.offset + 0 * d.num_cols ≤ d.offset + 0 * d.num_cols + e * d.num_cols ∧
          d.offset + 0 * d.num_cols + e * d.num_cols ≤ d.endPos := by
        constructor
        · omega
        · rw [hinv]
          have : e * d.num_cols ≤ d.num_rows * d.num_cols :=
            Nat.mul_le_mul_right _ he
          omega
      simp only [partitionLoop, PreparedDataSet.make_partition, hcheck, if_pos,
        Option.map_some]
      rfl
  | succ k ih =>
      intro e hle he
      have ht : t ≤ e := le_trans (Nat.le_mul_of_pos_left t (by omega)) hle
      have hsub : e - t + t = e := Nat.sub_add_cancel ht
      have hcheck : d.offset + (e - t) * d.num_cols ≤
            d.offset + (e - t) * d.num_cols + t * d.num_cols ∧
          d.offset + (e - t) * d.num_cols + t * d.num_cols ≤ d.endPos := by
        constructor
        · omega
        · rw [hinv]
          have h1 : (e - t) * d.num_cols + t * d.num_cols = e * d.num_cols := by
            rw [← Nat.add_mul, hsub]
          have h2 : e * d.num_cols ≤ d.num_rows * d.num_cols :=
            Nat.mul_le_mul_right _ he
          omega
      have hrec : partitionLoop d t k (e - t) = some (partsList d t k (e - t)) := by
        apply ih
        · have h0 : (k + 1) * t + t = (k + 1 + 1) * t := by ring
          omega
        · omega
      simp only [partitionLoop, ht, if_pos, PreparedDataSet.make_partition, hcheck,
        Option.some_bind, hrec, Option.map_some]
      rfl

theorem partsList_getD (d : PreparedDataSet) (t : Nat) :
    ∀ c e k, k ≤ c →
      (partsList d t c e).getD k dsEmpty =
        if k < c then mkPart d (e - (k + 1) * t) t else mkPart d 0 (e - c * t) := by
  intro c
  induction c with
  | zero =>
      intro e k hk
      interval_cases k
      simp [partsList]
  | succ c ih =>
      intro e k hk
      cases k with
      | zero =>
          simp only [partsList, List.getD_cons_zero]
          simp [Nat.one_mul]
      | succ j =>
          have hj : j ≤ c := by omega
          simp only [partsList, List.getD_cons_succ]
          rw [ih (e - t) j hj]
          have harith1 : e - t - (j + 1) * t = e - (j + 1 + 1) * t := by
            rw [Nat.sub_sub]
            congr 1
            ring
          have harith2 : e - t - c * t = e - (c + 1) * t := by
            rw [Nat.sub_sub]
            congr 1
            ring
          by_cases hlt : j < c
          · rw [if_pos hlt, if_pos (by omega), harith1]
          · rw [if_neg hlt, if_neg (by omega), harith2]

theorem partsList_rows_sum (d : PreparedDataSet) (t : Nat) :
    ∀ c e, c * t ≤ e →
      ((partsList d t c e).map PreparedDataSet.num_rows).sum = e := by
  intro c
  induction c with
  | zero => intro e _; simp [partsList, mkPart]
  | succ c ih =>
      intro e hce
      have ht : t ≤ e := by
        have : t ≤ (c + 1) * t := Nat.le_mul_of_pos_left t (by omega)
        omega
      simp only [partsList, List.map_cons, List.sum_cons, mkPart]
      rw [ih (e - t)]
      · omega
      · have : (c + 1) * t = c * t + t := by ring
        omega

theorem startRow_cover (R t P : Nat) (hP : 0 < P) (hPt : P * t ≤ R) :
    (∀ k, k + 1 < P → startRow R t P (k + 1) + partRows R t P (k + 1) = startRow R t P k) ∧
    startRow R t P 0 + partRows R t P 0 = R ∧
    startRow R t P (P - 1) = 0 := by
  refine ⟨?_, ?_, ?_⟩
  · intro k hk
    unfold startRow partRows
    by_cases h1 : k + 1 < P - 1
    · rw [if_pos h1, if_pos h1, if_pos (by omega)]
      have e1 : (k + 1 + 1) * t = (k + 1) * t + t := by ring
      have e2 : (k + 1 + 1) * t ≤ P * t := Nat.mul_le_mul_right t (by omega)
      omega
    · have hk1 : k + 1 = P - 1 := by omega
      rw [if_neg h1, if_neg h1, if_pos (by omega), hk1]
      omega
  · unfold startRow partRows
    by_cases h1 : 0 < P - 1
    · rw [if_pos h1, if_pos h1]
      have e1 : (0 + 1) * t = t := by ring
      have e2 : t ≤ P * t := Nat.le_mul_of_pos_left t hP
      omega
    · have hp1 : P = 1 := by omega
      rw [if_neg h1, if_neg h1, hp1]
      simp
  · unfold startRow
    rw [if_neg (by omega)]

/-- C8: for a consistent dataset with R rows and a partition count P
with 0 < P < R, partition returns exactly P partitions sharing the same
underlying storage without copying, each a contiguous row range of the
parent; the first P - 1 entries of the returned vector have exactly
R / P rows each and the final entry absorbs the remainder with
R - (P-1) * (R / P) rows; consecutive vector entries are adjacent row
ranges walking backward from row R to row zero, so the partitions are
pairwise disjoint and cover all R rows exactly. -/
theorem dataset_partition_spec (d : PreparedDataSet) (P : Nat)
    (hinv : d.endPos = d.offset + d.num_rows * d.num_cols)
    (hP : 0 < P) (hPR : P < d.num_rows) :
    ∃ l, d.partition P = some l ∧
      l.length = P ∧
      (∀ k, k < P → (l.getD k dsEmpty).data = d.data) ∧
      (∀ k, k < P - 1 → (l.getD k dsEmpty).num_rows = d.num_rows / P) ∧
      (l.getD (P - 1) dsEmpty).num_rows = d.num_rows - (P - 1) * (d.num_rows / P) ∧
      (l.map PreparedDataSet.num_rows).sum = d.num_rows ∧
      (∀ k, k < P → l.getD k dsEmpty =
        mkPart d (startRow d.num_rows (d.num_rows / P) P k)
          (partRows d.num_rows (d.num_rows / P) P k)) ∧
      (∀ k, k + 1 < P →
        startRow d.num_rows (d.num_rows / P) P (k + 1) +
            partRows d.num_rows (d.num_rows / P) P (k + 1) =
          startRow d.num_rows (d.num_rows / P) P k) ∧
      startRow d.num_rows (d.num_rows / P) P 0 +
          partRows d.num_rows (d.num_rows / P) P 0 = d.num_rows ∧
      startRow d.num_rows (d.num_rows / P) P (P - 1) = 0 := by
  set R := d.num_rows with hR
  set t := R / P with ht
  have hPt : P * t ≤ R := by
    rw [ht, Nat.mul_comm]
    exact Nat.div_mul_le_self R P
  have hloop : partitionLoop d t (P - 1) R = some (partsList d t (P - 1) R) := by
    apply partitionLoop_eq_partsList d hinv
    · have : P - 1 + 1 = P := by omega
      rw [this]
      exact hPt
    · exact le_refl R
  have helem : ∀ k, k < P → (partsList d t (P - 1) R).getD k dsEmpty =
      mkPart d (startRow R t P k) (partRows R t P k) := by
    intro k hk
    rw [partsList_getD d t (P - 1) R k (by omega)]
    by_cases hlt : k < P - 1
    · rw [if_pos hlt]
      unfold startRow partRows
      rw [if_pos hlt, if_pos hlt]
    · rw [if_neg hlt]
      unfold startRow partRows
      rw [if_neg hlt, if_neg hlt]
  refine ⟨partsList d t (P - 1) R, ?_, ?_, ?_, ?_, ?_, ?_, helem, ?_, ?_, ?_⟩
  · unfold PreparedDataSet.partition
    rw [if_pos ⟨hP, hPR⟩]
    exact hloop
  · rw [partsList_length]
    omega
  · intro k hk
    rw [helem k hk]
    rfl
  · intro k hk
    rw [helem k (by omega)]
    unfold mkPart partRows
    simp only
    rw [if_pos hk]
  · rw [helem (P - 1) (by omega)]
    unfold mkPart partRows
    simp only
    rw [if_neg (by omega)]
  · apply partsList_rows_sum
    have h1 : (P - 1) * t ≤ P * t := Nat.mul_le_mul_right t (by omega)
    omega
  · exact (startRow_cover R t P hP hPt).1
  · exact (startRow_cover R t P hP hPt).2.1
  · exact (startRow_cover R t P hP hPt).2.2

/-- C8 witness: the theorem applied to a concrete consistent dataset of
ten rows and one column, partitioned three ways. -/
theorem dataset_partition_spec_witness :
    ∃ l, PreparedDataSet.partition
        ⟨List.replicate 10 0, 0, 10, 1, 10, 1, 0⟩ 3 = some l ∧
      l.length = 3 ∧
      (∀ k, k < 3 → (l.getD k dsEmpty).data =
        (⟨List.replicate 10 0, 0, 10, 1, 10, 1, 0⟩ : PreparedDataSet).data) ∧
      (∀ k, k < 3 - 1 → (l.getD k dsEmpty).num_rows = 10 / 3) ∧
      (l.getD (3 - 1) dsEmpty).num_rows = 10 - (3 - 1) * (10 / 3) ∧
      (l.map PreparedDataSet.num_rows).sum = 10 ∧
      (∀ k, k < 3 → l.getD k dsEmpty =
        mkPart ⟨List.replicate 10 0, 0, 10, 1, 10, 1, 0⟩ (startRow 10 (10 / 3) 3 k)
          (partRows 10 (10 / 3) 3 k)) ∧
      (∀ k, k + 1 < 3 →
        startRow 10 (10 / 3) 3 (k + 1) + partRows 10 (10 / 3) 3 (k + 1) =
          startRow 10 (10 / 3) 3 k) ∧
      startRow 10 (10 / 3) 3 0 + partRows 10 (10 / 3) 3 0 = 10 ∧
      startRow 10 (10 / 3) 3 (3 - 1) = 0 :=
  dataset_partition_spec ⟨List.replicate 10 0, 0, 10, 1, 10, 1, 0⟩ 3 (by norm_num)
    (by norm_num) (by norm_num)

/-! ## Multi-threaded trainer shared state (src/train/backprop/multithreaded.rs) -/

/-- Shared state of the multi-threaded trainer. The weight buffer is
modelled by its flat contents. -/
structure SharedThreadState where
  worker_done_counter : Nat
  weight_buffer : List ℚ
  next_partition_index : Nat
  partition_row_shifts : List Nat
deriving Repr, DecidableEq

/-- Translation of the shared state initialization in
train_backprop_multi_threaded: zero done counter, the current network
weights, next_partition_index as num_workers modulo num_partitions, and
one zero shift counter per partition. -/
def initSharedState (weights : List ℚ) (num_workers num_partitions : Nat) :
    SharedThreadState :=
  { worker_done_counter := 0, weight_buffer := weights,
    next_partition_index := num_workers % num_partitions,
    partition_row_shifts := List.replicate num_partitions 0 }

/-- Elementwise add_with_multiplier on flat weight buffers, as used by
WeightBuffer::add_with_multiplier delegating to the row buffer; in the
call sites under study the two buffers have equal length. -/
def addWithMultiplierList (a b : List ℚ) (m : ℚ) : List ℚ :=
  List.zipWith (fun x y => x + y * m) a b

/-- Translation of the write-guard block of the multi-threaded worker
loop: add the weight diff scaled by one over num_partitions into the
shared weights, increment the done counter, take the current
next_partition_index as the own next partition and advance it by one
modulo num_partitions, read and increment the shift counter of the taken
partition, and decide the round-complete notification by divisibility of
the incremented counter. Returns the new shared state, the taken
partition index, the taken shift, and the notification decision. -/
def workerSyncUpdate (s : SharedThreadState) (weight_diffs : List ℚ)
    (num_partitions : Nat) : SharedThreadState × Nat × Nat × Bool :=
  let weight_buffer :=
    addWithMultiplierList s.weight_buffer weight_diffs (1 / (num_partitions : ℚ))
  let worker_done_counter := s.worker_done_counter + 1
  let partition_index := s.next_partition_index
  let next_partition_index := (partition_index + 1) % num_partitions
  let partition_shift := s.partition_row_shifts.getD partition_index 0
  let partition_row_shifts :=
    s.partition_row_shifts.set partition_index (partition_shift + 1)
  ({ worker_done_counter := worker_done_counter, weight_buffer := weight_buffer,
     next_partition_index := next_partition_index,
     partition_row_shifts := partition_row_shifts },
   partition_index, partition_shift,
   decide (worker_done_counter % num_partitions = 0))

theorem getD_zipWith (f : ℚ → ℚ → ℚ) :
    ∀ (a b : List ℚ) (i : Nat), i < a.length → i < b.length →
      (List.zipWith f a b).getD i 0 = f (a.getD i 0) (b.getD i 0) := by
  intro a
  induction a with
  | nil => intro b i h; simp at h
  | cons x xs ih =>
      intro b i ha hb
      cases b with
      | nil => simp at hb
      | cons y ys =>
          cases i with
          | zero => rfl
          | succ j =>
              simp only [List.zipWith_cons_cons, List.getD_cons_succ]
              exact ih ys j (by simpa using ha) (by simpa using hb)

/-- C2 counterexample: the claim lists the write-guard updates as
exactly the averaged weight add, the done counter increment, the
partition handoff and the notification; but the block also increments
the per-partition shift counter of the taken partition, so the shared
state changes in a field the claim says stays fixed. -/
theorem worker_sync_update_cex :
    (workerSyncUpdate ⟨0, [0], 0, [0]⟩ [0] 1).1.partition_row_shifts ≠
      (⟨0, [0], 0, [0]⟩ : SharedThreadState).partition_row_shifts := by
  simp [workerSyncUpdate]

/-- C2 (amended): the shared state is initialized with
next_partition_index equal to num_workers modulo num_partitions, and
each round completion performs under the write guard exactly these
updates: averaged weight contribution of weight_diff times one over
num_partitions, done counter plus one, round-robin handoff of
next_partition_index, the increment of the taken partition shift
counter, and one round-complete notification exactly when the
incremented done counter is divisible by num_partitions. -/
theorem worker_sync_update_spec :
    (∀ (s : SharedThreadState) (wd : List ℚ) (P : Nat),
      s.weight_buffer.length = wd.length →
      (∀ i, i < s.weight_buffer.length →
        (workerSyncUpdate s wd P).1.weight_buffer.getD i 0 =
          s.weight_buffer.getD i 0 + wd.getD i 0 * (1 / (P : ℚ))) ∧
      (workerSyncUpdate s wd P).1.weight_buffer.length = s.weight_buffer.length ∧
      (workerSyncUpdate s wd P).1.worker_done_counter = s.worker_done_counter + 1 ∧
      (workerSyncUpdate s wd P).2.1 = s.next_partition_index ∧
      (workerSyncUpdate s wd P).1.next_partition_index =
        (s.next_partition_index + 1) % P ∧
      (workerSyncUpdate s wd P).1.partition_row_shifts =
        s.partition_row_shifts.set s.next_partition_index
          (s.partition_row_shifts.getD s.next_partition_index 0 + 1) ∧
      ((workerSyncUpdate s wd P).2.2.2 = true ↔
        (s.worker_done_counter + 1) % P = 0)) ∧
    (∀ (weights : List ℚ) (W P : Nat),
      initSharedState weights W P =
        { worker_done_counter := 0, weight_buffer := weights,
          next_partition_index := W % P,
          partition_row_shifts := List.replicate P 0 }) := by
  constructor
  · intro s wd P hlen
    refine ⟨?_, ?_, rfl, rfl, rfl, rfl, ?_⟩
    · intro i hi
      exact getD_zipWith _ s.weight_buffer wd i hi (hlen ▸ hi)
    · simp only [workerSyncUpdate, addWithMultiplierList]
      rw [List.length_zipWith, hlen, Nat.min_self, ← hlen]
    · simp [workerSyncUpdate]
  · intro weights W P
    rfl

/-- C2 witness: the amended theorem applied at a concrete shared state
with two partitions. -/
theorem worker_sync_update_spec_witness :
    (∀ i, i < ([2, 6] : List ℚ).length →
      (workerSyncUpdate ⟨3, [2, 6], 1, [0, 4]⟩ [4, 8] 2).1.weight_buffer.getD i 0 =
        ([2, 6] : List ℚ).getD i 0 + ([4, 8] : List ℚ).getD i 0 * (1 / (2 : ℚ))) ∧
    (workerSyncUpdate ⟨3, [2, 6], 1, [0, 4]⟩ [4, 8] 2).1.weight_buffer.length =
      ([2, 6] : List ℚ).length ∧
    (workerSyncUpdate ⟨3, [2, 6], 1, [0, 4]⟩ [4, 8] 2).1.worker_done_counter = 3 + 1 ∧
    (workerSyncUpdate ⟨3, [2, 6], 1, [0, 4]⟩ [4, 8] 2).2.1 = 1 ∧
    (workerSyncUpdate ⟨3, [2, 6], 1, [0, 4]⟩ [4, 8] 2).1.next_partition_index =
      (1 + 1) % 2 ∧
    (workerSyncUpdate ⟨3, [2, 6], 1, [0, 4]⟩ [4, 8] 2).1.partition_row_shifts =
      ([0, 4] : List Nat).set 1 (([0, 4] : List Nat).getD 1 0 + 1) ∧
    ((workerSyncUpdate ⟨3, [2, 6], 1, [0, 4]⟩ [4, 8] 2).2.2.2 = true ↔
      (3 + 1) % 2 = 0) :=
  (worker_sync_update_spec.1 ⟨3, [2, 6], 1, [0, 4]⟩ [4, 8] 2 rfl)

/-! ## Channel failure handling (src/train/executor.rs and the worker
notification send of src/train/backprop/multithreaded.rs) -/

/-- One iteration environment of the LocalExecutor worker loop: whether
each channel interaction of the iteration succeeds, and whether the task
execution succeeds, which selects send_result versus send_err. -/
structure ExecIter where
  recv_ok : Bool
  accept_ok : Bool
  exec_ok : Bool
  send_ok : Bool
deriving Repr, DecidableEq

/-- Translation of the inner closure of the LocalExecutor worker thread:
iterations run until the list is exhausted (the stop flag observed) or a
channel operation fails, where question-mark cascading aborts the
closure with an error; get_next_task, accept_task and then send_result
or send_err, depending on the task outcome, each go over a channel.
Returns the number of fully completed iterations and whether a channel
error occurred. -/
def execWorkerInner : List ExecIter → Nat × Bool
  | [] => (0, false)
  | it :: rest =>
      if !it.recv_ok then (0, true)
      else if !it.accept_ok then (0, true)
      else if it.exec_ok then
        if !it.send_ok then (0, true)
        else
          let r := execWorkerInner rest
          (r.1 + 1, r.2)
      else
        if !it.send_ok then (0, true)
        else
          let r := execWorkerInner rest
          (r.1 + 1, r.2)

/-- Translation of the LocalExecutor worker thread body: when the inner
closure ends with an error, true is stored into the shared stopped flag
and the thread function simply returns. Result: final stop flag and
whether the thread panicked, which it never does. -/
def execWorkerBody (stopped : Bool) (iters : List ExecIter) : Bool × Bool :=
  let r := execWorkerInner iters
  (if r.2 then true else stopped, false)

/-- Index of the first iteration with a failing channel interaction. -/
def firstChanFailure : List ExecIter → Option Nat
  | [] => none
  | it :: rest =>
      if !it.recv_ok || !it.accept_ok || !it.send_ok then some 0
      else (firstChanFailure rest).map (fun n => n + 1)

theorem execWorkerInner_eq (l : List ExecIter) :
    execWorkerInner l =
      match firstChanFailure l with
      | none => (l.length, false)
      | some k => (k, true) := by
  induction l with
  | nil => rfl
  | cons it rest ih =>
      obtain ⟨r, a, e, s⟩ := it
      cases r <;> cases a <;> cases e <;> cases s <;>
        simp only [execWorkerInner, firstChanFailure, Bool.not_true, Bool.not_false,
          Bool.false_or, Bool.true_or, Bool.or_self, Bool.or_false, Bool.or_true,
          if_true, if_false, ite_true, ite_false, ih] <;>
        cases hf : firstChanFailure rest <;> simp [hf, List.length_cons]

/-- Translation of the notification send at the end of the write-guard
block of the multi-threaded trainer worker: when the incremented done
counter is divisible by the partition count the worker sends on the
round-complete channel; if the send fails because the receiver hung up,
the worker returns at once, leaving the stage_complete_flag untouched.
Returns the flag value after the block and whether the worker exits. -/
def mtWorkerNotify (stage_complete_flag : Bool) (done_counter num_partitions : Nat)
    (send_ok : Bool) : Bool × Bool :=
  if done_counter % num_partitions = 0 then
    if send_ok then (stage_complete_flag, false)
    else (stage_complete_flag, true)
  else (stage_complete_flag, false)

/-- C9 counterexample: in the multi-threaded trainer a failed
round-complete send makes the worker exit while the shared stop flag
stays false, contradicting the claim that every worker whose channel
send fails sets the shared stop flag. -/
theorem channel_failure_cex :
    (mtWorkerNotify false 1 1 false).2 = true ∧
      (mtWorkerNotify false 1 1 false).1 = false := by
  constructor <;> rfl

/-- C9 (amended): in the task executor a worker thread whose channel
interaction fails sets the shared stop flag and returns without
panicking; it performs no retry, completing exactly the iterations
before the first failure. In the multi-threaded trainer a worker whose
round-complete send fails exits quietly without retrying, but leaves the
shared stop flag unchanged; the flag is only ever set by the
coordinator. -/
theorem channel_failure_spec :
    (∀ (stopped : Bool) (iters : List ExecIter) (k : Nat),
      firstChanFailure iters = some k →
      execWorkerBody stopped iters = (true, false) ∧
        (execWorkerInner iters).1 = k) ∧
    (∀ (flag : Bool) (done P : Nat),
      mtWorkerNotify flag done P false = (flag, decide (done % P = 0))) := by
  constructor
  · intro stopped iters k hk
    have h := execWorkerInner_eq iters
    rw [hk] at h
    constructor
    · simp [execWorkerBody, h]
    · rw [h]
  · intro flag done P
    unfold mtWorkerNotify
    by_cases h : done % P = 0 <;> simp [h]

/-- C9 witness: the amended theorem applied to a concrete executor
iteration trace failing at its second iteration, and to a concrete
failing trainer notification. -/
theorem channel_failure_spec_witness :
    (execWorkerBody false
        [⟨true, true, true, true⟩, ⟨true, false, true, true⟩] = (true, false) ∧
      (execWorkerInner
        [⟨true, true, true, true⟩, ⟨true, false, true, true⟩]).1 = 1) ∧
    mtWorkerNotify false 2 2 false = (false, decide (2 % 2 = 0)) :=
  ⟨channel_failure_spec.1 false
      [⟨true, true, true, true⟩, ⟨true, false, true, true⟩] 1 rfl,
   channel_failure_spec.2 false 2 2⟩

/-! ## List access helpers shared by the layer and trainer proofs -/

theorem getD_set_self_q (l : List ℚ) (i : Nat) (x : ℚ) (h : i < l.length) :
    (l.set i x).getD i 0 = x := by
  rw [List.getD_eq_getElem?_getD]
  rw [List.getElem?_set_self (by simpa using h)]
  rfl

theorem getD_set_ne_q (l : List ℚ) (i j : Nat) (x : ℚ) (h : i ≠ j) :
    (l.set i x).getD j 0 = l.getD j 0 := by
  rw [List.getD_eq_getElem?_getD, List.getElem?_set_ne h, ← List.getD_eq_getElem?_getD]

theorem getD_replicate_zero_q (n q : Nat) : (List.replicate n (0 : ℚ)).getD q 0 = 0 := by
  rw [List.getD_eq_getElem?_getD]
  rcases Nat.lt_or_ge q n with h | h
  · rw [List.getElem?_replicate_of_lt h]; rfl
  · rw [List.getElem?_eq_none (by simpa using h)]; rfl

theorem row_major_inj (s i1 j1 i2 j2 : Nat) (h1 : j1 < s) (h2 : j2 < s)
    (h : i1 * s + j1 = i2 * s + j2) : i1 = i2 ∧ j1 = j2 := by
  have hs : 0 < s := by omega
  have d1 : ∀ i j : Nat, j < s → (i * s + j) / s = i := by
    intro i j hj
    rw [Nat.add_comm, Nat.add_mul_div_right _ _ hs, Nat.div_eq_of_lt hj, Nat.zero_add]
  have m1 : ∀ i j : Nat, j < s → (i * s + j) % s = j := by
    intro i j hj
    rw [Nat.add_comm, Nat.add_mul_mod_self_right, Nat.mod_eq_of_lt hj]
  constructor
  · rw [← d1 i1 j1 h1, ← d1 i2 j2 h2, h]
  · rw [← m1 i1 j1 h1, ← m1 i2 j2 h2, h]

theorem row_major_lt (s n i j : Nat) (hi : i < n) (hj : j < s) : i * s + j < n * s := by
  calc i * s + j < i * s + s := by omega
    _ = (i + 1) * s := by ring
    _ ≤ n * s := Nat.mul_le_mul_right s (by omega)

/-! ## Activation functions (src/func/activation.rs) -/

/-- Activation family. The source LogisticSigmoid variant evaluates the
f32 exponential, a transcendental function with no exact rational
counterpart, so the embedding abstracts the activation value map and the
derivative map; the claims under study depend only on which argument
each map receives. The source design choice that
get_activation_derivative receives the activation output value, not the
pre-activation sum, is preserved at every call site. -/
structure ActivationFn where
  act : ℚ → ℚ
  deriv : ℚ → ℚ

/-- Translation of ActivationFn::get_activation. -/
def ActivationFn.get_activation (f : ActivationFn) (n : ℚ) : ℚ := f.act n

/-- Translation of ActivationFn::get_activation_derivative; the source
documents that its argument is the activation value. -/
def ActivationFn.get_activation_derivative (f : ActivationFn) (n : ℚ) : ℚ := f.deriv n

/-! ## Fully connected layer (src/layer.rs) -/

/-- Fully connected layer: weights in row-major order indexed by
input_index * size + node_index, one bias per output node. -/
structure FullyConnectedNetLayer where
  input_size : Nat
  size : Nat
  weights : List ℚ
  biases : List ℚ
  activation_fn : ActivationFn

/-- Translation of FullyConnectedNetLayer::new: zeroed weights of length
input_size * size and zeroed biases of length size. -/
def FullyConnectedNetLayer.new (input_size size : Nat) (activation_fn : ActivationFn) :
    FullyConnectedNetLayer :=
  { input_size := input_size, size := size,
    weights := List.replicate (input_size * size) 0,
    biases := List.replicate size 0, activation_fn := activation_fn }

/-- Translation of get_weight: weights[input_index * size + node_index]. -/
def FullyConnectedNetLayer.get_weight (l : FullyConnectedNetLayer)
    (input_index node_index : Nat) : ℚ :=
  l.weights.getD (input_index * l.size + node_index) 0

/-- Translation of weight_buffer_size: weights plus biases. -/
def FullyConnectedNetLayer.weight_buffer_size (l : FullyConnectedNetLayer) : Nat :=
  l.weights.length + l.biases.length

/-- Translation of FullyConnectedNetLayer::forward_pass: per output
node, fold the weighted inputs onto the bias in source order and apply
the activation. The source writes output[node_index] for each node; the
embedding returns exactly that list of size entries. The source debug
assertion on the input length is compiled out in optimized builds and is
carried as a hypothesis by the theorems instead. -/
def FullyConnectedNetLayer.forwardList (l : FullyConnectedNetLayer)
    (input : List ℚ) : List ℚ :=
  (List.range l.size).map (fun node_index =>
    l.activation_fn.get_activation
      ((List.range l.input_size).foldl
        (fun sum input_index =>
          sum + input.getD input_index 0 * l.get_weight input_index node_index)
        (l.biases.getD node_index 0)))

/-- Node error gradient of the backward pass: the activation derivative
evaluated at the output value of the node, times the output error. -/
def nodeErrGrad (l : FullyConnectedNetLayer) (output_errors outputs : List ℚ)
    (j : Nat) : ℚ :=
  l.activation_fn.get_activation_derivative (outputs.getD j 0) * output_errors.getD j 0

/-- Connection body of the backprop inner loop over input_index, lifted
to a named function: accumulate the weight delta into delta_target at
the row-major position and the weighted error into input_errors. The
state is the pair (input_errors, delta_target). -/
def backpropInnerStep (l : FullyConnectedNetLayer) (inputs : List ℚ)
    (learning_rate node_error_gradient : ℚ) (node_index : Nat)
    (st : List ℚ × List ℚ) (input_index : Nat) : List ℚ × List ℚ :=
  let input := inputs.getD input_index 0
  let connection_weight := l.get_weight input_index node_index
  let weight_delta := -learning_rate * node_error_gradient * input
  let dt := st.2.set (input_index * l.size + node_index)
    (st.2.getD (input_index * l.size + node_index) 0 + weight_delta)
  let ie := st.1.set input_index
    (st.1.getD input_index 0 + connection_weight * node_error_gradient)
  (ie, dt)

/-- Node body of the backprop outer loop over node_index: compute the
node error gradient from the output value, run the connection loop, then
accumulate the bias delta at bias_offset + node_index. -/
def backpropNodeStep (l : FullyConnectedNetLayer)
    (output_errors inputs outputs : List ℚ) (learning_rate : ℚ)
    (st : List ℚ × List ℚ) (node_index : Nat) : List ℚ × List ℚ :=
  let node_error_gradient := nodeErrGrad l output_errors outputs node_index
  let st2 := (List.range l.input_size).foldl
    (backpropInnerStep l inputs learning_rate node_error_gradient node_index) st
  (st2.1, st2.2.set (l.weights.length + node_index)
    (st2.2.getD (l.weights.length + node_index) 0 - learning_rate * node_error_gradient))

/-- Translation of FullyConnectedNetLayer::backprop: zero the
input_errors buffer, then loop over the output nodes with the connection
loop nested inside. The receiver is immutable in the source, so the
stored weights cannot change; the function returns the updated pair
(input_errors, delta_target). -/
def FullyConnectedNetLayer.backprop (l : FullyConnectedNetLayer)
    (output_errors inputs outputs : List ℚ) (learning_rate : ℚ)
    (input_errors delta_target : List ℚ) : List ℚ × List ℚ :=
  (List.range l.size).foldl
    (backpropNodeStep l output_errors inputs outputs learning_rate)
    (List.replicate input_errors.length 0, delta_target)

/-- Method-call view of backprop recording Rust receiver semantics: the
layer is taken by shared reference, so the call returns with the layer,
in particular its stored weights, unmodified. -/
def backprop_method (l : FullyConnectedNetLayer)
    (output_errors inputs outputs : List ℚ) (learning_rate : ℚ)
    (input_errors delta_target : List ℚ) :
    FullyConnectedNetLayer × (List ℚ × List ℚ) :=
  (l, l.backprop output_errors inputs outputs learning_rate input_errors delta_target)

theorem backpropInner_fold (l : FullyConnectedNetLayer) (inputs : List ℚ)
    (lr g : ℚ) (j : Nat) (hj : j < l.size)
    (hw : l.weights.length = l.input_size * l.size) :
    ∀ m : Nat, m ≤ l.input_size → ∀ ie dt : List ℚ,
      ie.length = l.input_size → l.weights.length ≤ dt.length →
      ∃ ie2 dt2,
        (List.range m).foldl (backpropInnerStep l inputs lr g j) (ie, dt) = (ie2, dt2) ∧
        ie2.length = l.input_size ∧
        dt2.length = dt.length ∧
        (∀ q, ie2.getD q 0 =
          if q < m then ie.getD q 0 + l.get_weight q j * g else ie.getD q 0) ∧
        (∀ i2 j2, i2 < l.input_size → j2 < l.size →
          dt2.getD (i2 * l.size + j2) 0 =
            if j2 = j ∧ i2 < m then
              dt.getD (i2 * l.size + j2) 0 + -lr * g * inputs.getD i2 0
            else dt.getD (i2 * l.size + j2) 0) ∧
        (∀ q, l.weights.length ≤ q → dt2.getD q 0 = dt.getD q 0) := by
  intro m
  induction m with
  | zero =>
      intro _ ie dt hie hdt
      refine ⟨ie, dt, by simp, hie, rfl, ?_, ?_, ?_⟩
      · intro q; simp
      · intro i2 j2 _ _; simp
      · intro q _; rfl
  | succ m ih =>
      intro hm ie dt hie hdt
      obtain ⟨ie2, dt2, hfold, hlen1, hlen2, hieP, hdtP, hbiasP⟩ :=
        ih (by omega) ie dt hie hdt
      have hmlt : m < l.input_size := by omega
      have hidx : m * l.size + j < l.weights.length := by
        rw [hw]; exact row_major_lt l.size l.input_size m j hmlt hj
      refine ⟨ie2.set m (ie2.getD m 0 + l.get_weight m j * g),
        dt2.set (m * l.size + j)
          (dt2.getD (m * l.size + j) 0 + -lr * g * inputs.getD m 0),
        ?_, ?_, ?_, ?_, ?_, ?_⟩
      · rw [List.range_succ, List.foldl_append, hfold]
        simp only [List.foldl_cons, List.foldl_nil, backpropInnerStep]
      · rw [List.length_set, hlen1]
      · rw [List.length_set, hlen2]
      · intro q
        by_cases hq : q = m
        · subst hq
          rw [getD_set_self_q _ _ _ (by omega)]
          rw [hieP q]
          rw [if_neg (by omega), if_pos (by omega)]
        · rw [getD_set_ne_q _ _ _ _ (fun h => hq h.symm), hieP q]
          by_cases hlt : q < m
          · rw [if_pos hlt, if_pos (by omega)]
          · rw [if_neg hlt, if_neg (by omega)]
      · intro i2 j2 hi2 hj2
        by_cases heq : i2 * l.size + j2 = m * l.size + j
        · obtain ⟨hi, hjj⟩ := row_major_inj l.size i2 j2 m j hj2 hj heq
          subst hi; subst hjj
          rw [getD_set_self_q _ _ _ (by omega)]
          rw [hdtP i2 j2 hi2 hj2, if_neg (by omega), if_pos (by omega)]
        · rw [getD_set_ne_q _ _ _ _ (fun h => heq h.symm), hdtP i2 j2 hi2 hj2]
          by_cases hc : j2 = j ∧ i2 < m
          · rw [if_pos hc, if_pos ⟨hc.1, by omega⟩]
          · have hc2 : ¬ (j2 = j ∧ i2 < m + 1) := by
              intro hcon
              rcases Nat.lt_or_ge i2 m with h2 | h2
              · exact hc ⟨hcon.1, h2⟩
              · have : i2 = m := by omega
                exact heq (by rw [this, hcon.1])
            rw [if_neg hc, if_neg hc2]
      · intro q hq
        rw [getD_set_ne_q _ _ _ _ (by omega), hbiasP q hq]

theorem backprop_fold (l : FullyConnectedNetLayer)
    (output_errors inputs outputs : List ℚ) (lr : ℚ)
    (hw : l.weights.length = l.input_size * l.size)
    (hb : l.biases.length = l.size) :
    ∀ n : Nat, n ≤ l.size → ∀ ie dt : List ℚ,
      ie.length = l.input_size →
      dt.length = l.weights.length + l.biases.length →
      ∃ ie2 dt2,
        (List.range n).foldl
          (backpropNodeStep l output_errors inputs outputs lr) (ie, dt) = (ie2, dt2) ∧
        ie2.length = l.input_size ∧
        dt2.length = dt.length ∧
        (∀ q, q < l.input_size →
          ie2.getD q 0 = ie.getD q 0 +
            ((List.range n).map
              (fun j => l.get_weight q j * nodeErrGrad l output_errors outputs j)).sum) ∧
        (∀ i2 j2, i2 < l.input_size → j2 < l.size →
          dt2.getD (i2 * l.size + j2) 0 =
            if j2 < n then
              dt.getD (i2 * l.size + j2) 0 +
                -lr * nodeErrGrad l output_errors outputs j2 * inputs.getD i2 0
            else dt.getD (i2 * l.size + j2) 0) ∧
        (∀ jb, jb < l.biases.length →
          dt2.getD (l.weights.length + jb) 0 =
            if jb < n then
              dt.getD (l.weights.length + jb) 0 -
                lr * nodeErrGrad l output_errors outputs jb
            else dt.getD (l.weights.length + jb) 0) := by
  intro n
  induction n with
  | zero =>
      intro _ ie dt hie hdt
      refine ⟨ie, dt, by simp, hie, rfl, ?_, ?_, ?_⟩
      · intro q _; simp
      · intro i2 j2 _ _; simp
      · intro jb _; simp
  | succ n ih =>
      intro hn ie dt hie hdt
      obtain ⟨ie2, dt2, hfold, hlen1, hlen2, hieP, hdtP, hbiasP⟩ :=
        ih (by omega) ie dt hie hdt
      have hnlt : n < l.size := by omega
      obtain ⟨ie3, dt3, hfold2, hlen3, hlen4, hieQ, hdtQ, hbiasQ⟩ :=
        backpropInner_fold l inputs lr (nodeErrGrad l output_errors outputs n) n hnlt hw
          l.input_size (le_refl _) ie2 dt2 hlen1 (by omega)
      have hbidx : l.weights.length + n < dt3.length := by omega
      refine ⟨ie3, dt3.set (l.weights.length + n)
          (dt3.getD (l.weights.length + n) 0 -
            lr * nodeErrGrad l output_errors outputs n),
        ?_, hlen3, ?_, ?_, ?_, ?_⟩
      · rw [List.range_succ, List.foldl_append, hfold]
        simp only [List.foldl_cons, List.foldl_nil, backpropNodeStep, hfold2]
      · rw [List.length_set]
        omega
      · intro q hq
        rw [hieQ q, if_pos hq, hieP q hq]
        rw [List.range_succ, List.map_append, List.sum_append]
        simp only [List.map_cons, List.map_nil, List.sum_cons, List.sum_nil]
        ring
      · intro i2 j2 hi2 hj2
        have hne : i2 * l.size + j2 ≠ l.weights.length + n := by
          have : i2 * l.size + j2 < l.weights.length := by
            rw [hw]; exact row_major_lt l.size l.input_size i2 j2 hi2 hj2
          omega
        rw [getD_set_ne_q _ _ _ _ (fun h => hne h.symm)]
        rw [hdtQ i2 j2 hi2 hj2]
        by_cases hjn : j2 = n
        · subst hjn
          rw [if_pos ⟨rfl, hi2⟩, hdtP i2 j2 hi2 hj2, if_neg (by omega),
            if_pos (by omega)]
        · rw [if_neg (fun h => hjn h.1), hdtP i2 j2 hi2 hj2]
          by_cases hlt : j2 < n
          · rw [if_pos hlt, if_pos (by omega)]
          · rw [if_neg hlt, if_neg (by omega)]
      · intro jb hjb
        by_cases hjn : jb = n
        · subst hjn
          rw [getD_set_self_q _ _ _ hbidx]
          rw [hbiasQ (l.weights.length + jb) (by omega),
            hbiasP jb hjb, if_neg (by omega), if_pos (by omega)]
        · rw [getD_set_ne_q _ _ _ _ (by omega)]
          rw [hbiasQ (l.weights.length + jb) (by omega), hbiasP jb hjb]
          by_cases hlt : jb < n
          · rw [if_pos hlt, if_pos (by omega)]
          · rw [if_neg hlt, if_neg (by omega)]

/-- C1: for a well-shaped fully connected layer and argument slices of
the declared sizes, backprop zeroes the input_errors buffer and then,
with node_error_gradient equal to the activation derivative evaluated at
the output value of the node (not its pre-activation sum) times the
output error of the node, accumulates for every connection
delta_target[input_index * output_size + node] plus
-learning_rate * node_error_gradient * inputs[input_index], accumulates
input_errors[input_index] as the sum over nodes of
weight[input_index, node] * node_error_gradient, accumulates the bias
delta at bias_offset + node, and leaves the layer, in particular its
stored weights, unmodified. -/
theorem layer_backprop_spec (l : FullyConnectedNetLayer)
    (output_errors inputs outputs : List ℚ) (lr : ℚ)
    (input_errors delta_target : List ℚ)
    (hw : l.weights.length = l.input_size * l.size)
    (hb : l.biases.length = l.size)
    (hie : input_errors.length = l.input_size)
    (hdt : delta_target.length = l.weights.length + l.biases.length) :
    (l.backprop output_errors inputs outputs lr input_errors delta_target).1.length
        = l.input_size ∧
    (l.backprop output_errors inputs outputs lr input_errors delta_target).2.length
        = delta_target.length ∧
    (∀ i, i < l.input_size →
      (l.backprop output_errors inputs outputs lr input_errors delta_target).1.getD i 0 =
        ((List.range l.size).map
          (fun j => l.get_weight i j * nodeErrGrad l output_errors outputs j)).sum) ∧
    (∀ i j, i < l.input_size → j < l.size →
      (l.backprop output_errors inputs outputs lr input_errors delta_target).2.getD
          (i * l.size + j) 0 =
        delta_target.getD (i * l.size + j) 0 +
          -lr * nodeErrGrad l output_errors outputs j * inputs.getD i 0) ∧
    (∀ j, j < l.size →
      (l.backprop output_errors inputs outputs lr input_errors delta_target).2.getD
          (l.weights.length + j) 0 =
        delta_target.getD (l.weights.length + j) 0 -
          lr * nodeErrGrad l output_errors outputs j) ∧
    (backprop_method l output_errors inputs outputs lr input_errors delta_target).1
      = l := by
  obtain ⟨ie2, dt2, hfold, hlen1, hlen2, hieP, hdtP, hbiasP⟩ :=
    backprop_fold l output_errors inputs outputs lr hw hb l.size (le_refl _)
      (List.replicate input_errors.length 0) delta_target
      (by rw [List.length_replicate, hie]) hdt
  have hres : l.backprop output_errors inputs outputs lr input_errors delta_target =
      (ie2, dt2) := by
    unfold FullyConnectedNetLayer.backprop
    exact hfold
  rw [hres]
  refine ⟨hlen1, hlen2, ?_, ?_, ?_, rfl⟩
  · intro i hi
    have := hieP i hi
    rw [getD_replicate_zero_q, zero_add] at this
    exact this
  · intro i j hi hj
    have := hdtP i j hi hj
    rw [if_pos hj] at this
    exact this
  · intro j hj
    have := hbiasP j (by omega)
    rw [if_pos (by omega)] at this
    exact this

/-- Concrete one-input one-node layer used by the layer backprop witness:
weight 2, bias 3, identity activation with constant derivative one. -/
def layerW : FullyConnectedNetLayer :=
  { input_size := 1, size := 1, weights := [2], biases := [3],
    activation_fn := { act := fun x => x, deriv := fun _ => 1 } }

/-- C1 witness: the theorem applied to the concrete layer with output
error 5, input 7, output 11 and learning rate one. -/
theorem layer_backprop_spec_witness :
    (layerW.backprop [5] [7] [11] 1 [0] [0, 0]).1.length = layerW.input_size ∧
    (layerW.backprop [5] [7] [11] 1 [0] [0, 0]).2.length = ([0, 0] : List ℚ).length ∧
    (∀ i, i < layerW.input_size →
      (layerW.backprop [5] [7] [11] 1 [0] [0, 0]).1.getD i 0 =
        ((List.range layerW.size).map
          (fun j => layerW.get_weight i j * nodeErrGrad layerW [5] [11] j)).sum) ∧
    (∀ i j, i < layerW.input_size → j < layerW.size →
      (layerW.backprop [5] [7] [11] 1 [0] [0, 0]).2.getD (i * layerW.size + j) 0 =
        ([0, 0] : List ℚ).getD (i * layerW.size + j) 0 +
          -1 * nodeErrGrad layerW [5] [11] j * ([7] : List ℚ).getD i 0) ∧
    (∀ j, j < layerW.size →
      (layerW.backprop [5] [7] [11] 1 [0] [0, 0]).2.getD (layerW.weights.length + j) 0 =
        ([0, 0] : List ℚ).getD (layerW.weights.length + j) 0 -
          1 * nodeErrGrad layerW [5] [11] j) ∧
    (backprop_method layerW [5] [7] [11] 1 [0] [0, 0]).1 = layerW :=
  layer_backprop_spec layerW [5] [7] [11] 1 [0] [0, 0] rfl rfl rfl rfl

/-! ## Net (src/net.rs) -/

/-- Closed layer variant set from src/layer.rs, currently one variant. -/
inductive NetLayer where
  | FullyConnected (layer : FullyConnectedNetLayer)

/-- Forward pass dispatch of the NetLayer enum. -/
def NetLayer.forwardList : NetLayer → List ℚ → List ℚ
  | .FullyConnected layer, input => layer.forwardList input

/-- Input size dispatch. -/
def NetLayer.input_size : NetLayer → Nat
  | .FullyConnected layer => layer.input_size

/-- Output size dispatch; for a fully connected layer this is its size. -/
def NetLayer.output_size : NetLayer → Nat
  | .FullyConnected layer => layer.size

/-- Weight buffer size dispatch. -/
def NetLayer.weight_buffer_size : NetLayer → Nat
  | .FullyConnected layer => layer.weight_buffer_size

/-- Layer configuration variants from src/layer.rs. -/
inductive NetLayerConfig where
  | FullyConnected (size : Nat) (activation : ActivationFn)

/-- Declared output size of a layer config. -/
def NetLayerConfig.size : NetLayerConfig → Nat
  | .FullyConnected s _ => s

/-- Translation of NetLayerConfig::create_layer. -/
def NetLayerConfig.create_layer : NetLayerConfig → Nat → NetLayer
  | .FullyConnected size activation, input_size =>
      .FullyConnected (FullyConnectedNetLayer.new input_size size activation)

/-- Network configuration from src/net.rs. -/
structure NetConfig where
  input_size : Nat
  layers : List NetLayerConfig

/-- Translation of NetConfig::new_fully_connected: the source asserts
positive input, output and hidden layer sizes (modelled by none), then
pushes one fully connected config per hidden size followed by the output
layer config. -/
def NetConfig.new_fully_connected (input_size output_size : Nat)
    (hidden_layer_sizes : List Nat) (activation_fn : ActivationFn) :
    Option NetConfig :=
  if 0 < input_size ∧ 0 < output_size ∧ ∀ s ∈ hidden_layer_sizes, 0 < s then
    some { input_size := input_size,
           layers :=
             hidden_layer_sizes.map
               (fun s => NetLayerConfig.FullyConnected s activation_fn) ++
             [NetLayerConfig.FullyConnected output_size activation_fn] }
  else none

/-- Layer construction loop of create_net: each layer consumes the
previous output size as its input size, starting from the network input
size. -/
def buildLayers : Nat → List NetLayerConfig → List NetLayer
  | _, [] => []
  | layer_input_size, cfg :: rest =>
      let layer := cfg.create_layer layer_input_size
      layer :: buildLayers layer.output_size rest

/-- Network from src/net.rs: sizes plus the ordered layer list. -/
structure Net where
  input_size : Nat
  output_size : Nat
  max_buffer_size : Nat
  layers : List NetLayer

/-- Translation of NetConfig::create_net: asserts positive input size
and a non-empty config list, builds the chained layers, takes
output_size from the last layer and max_buffer_size as the maximum
weight buffer size over the layers (the unwrap on the empty maximum
cannot fire under the assert; the fold from zero agrees with the
maximum of a non-empty Nat list). -/
def NetConfig.create_net (c : NetConfig) : Option Net :=
  if 0 < c.input_size ∧ 0 < c.layers.length then
    match (buildLayers c.input_size c.layers).getLast? with
    | some last =>
        some { input_size := c.input_size,
               output_size := last.output_size,
               max_buffer_size :=
                 ((buildLayers c.input_size c.layers).map
                   NetLayer.weight_buffer_size).foldl Nat.max 0,
               layers := buildLayers c.input_size c.layers }
    | none => none
  else none

/-- Write the forward output of a layer into the front of a scratch
buffer, keeping its tail: the source forward_pass stores exactly the
first output_size entries of the target buffer. -/
def writeForward (layer : NetLayer) (input buffer : List ℚ) : List ℚ :=
  layer.forwardList input ++ buffer.drop layer.output_size

/-- Fallback layer for list indexing; unreachable under the guards. -/
def dummyLayer : NetLayer :=
  .FullyConnected (FullyConnectedNetLayer.new 0 0 ⟨fun x => x, fun x => x⟩)

/-- Translation of Net::predict_with_buffers with its debug assertions
modelled by none: the shape checks and the num_layers > 1 assertion.
After the first layer writes into buffer_a, the loop over the middle
layers row_index in 1..num_layers-1 forwards from the input buffer into
the output buffer and swaps the two; the last layer writes into the
output slice. -/
def Net.predict_with_buffers (net : Net) (input output buffer_a buffer_b : List ℚ) :
    Option (List ℚ) :=
  if input.length = net.input_size ∧ output.length = net.output_size ∧
      net.max_buffer_size ≤ buffer_a.length ∧ net.max_buffer_size ≤ buffer_b.length ∧
      1 < net.layers.length then
    let ib0 := writeForward (net.layers.getD 0 dummyLayer) input buffer_a
    let st := ((net.layers.drop 1).dropLast).foldl
      (fun st layer => (writeForward layer st.1 st.2, st.1)) (ib0, buffer_b)
    some (writeForward (net.layers.getD (net.layers.length - 1) dummyLayer) st.1 output)
  else none

/-- Translation of Net::predict: a zeroed output vector of length
output_size and two zeroed scratch buffers of length max_buffer_size. -/
def Net.predict (net : Net) (input : List ℚ) : Option (List ℚ) :=
  net.predict_with_buffers input (List.replicate net.output_size 0)
    (List.replicate net.max_buffer_size 0) (List.replicate net.max_buffer_size 0)

/-- Chained forward passes of a layer list: the claim form of the
network forward pass, which predict must agree with. -/
def chainForward (layers : List NetLayer) (input : List ℚ) : List ℚ :=
  layers.foldl (fun v layer => layer.forwardList v) input

/-- Layer chaining invariant: each layer consumes the previous output
size, starting from the given size. -/
def chainedFrom : Nat → List NetLayer → Prop
  | _, [] => True
  | s, layer :: rest => layer.input_size = s ∧ chainedFrom layer.output_size rest

theorem forwardList_length (layer : NetLayer) (input : List ℚ) :
    (layer.forwardList input).length = layer.output_size := by
  cases layer with
  | FullyConnected l =>
      simp [NetLayer.forwardList, FullyConnectedNetLayer.forwardList, NetLayer.output_size]

theorem forwardList_congr (layer : NetLayer) (v w : List ℚ)
    (h : ∀ i, i < layer.input_size → v.getD i 0 = w.getD i 0) :
    layer.forwardList v = layer.forwardList w := by
  cases layer with
  | FullyConnected l =>
      simp only [NetLayer.input_size] at h
      simp only [NetLayer.forwardList, FullyConnectedNetLayer.forwardList]
      apply List.map_congr_left
      intro j _
      congr 1
      apply List.foldl_ext
      intro sum i hi
      rw [h i (List.mem_range.mp hi)]

theorem writeForward_length (layer : NetLayer) (v buf : List ℚ)
    (h : layer.output_size ≤ buf.length) :
    (writeForward layer v buf).length = buf.length := by
  simp only [writeForward, List.length_append, List.length_drop, forwardList_length]
  omega

theorem writeForward_getD (layer : NetLayer) (v buf : List ℚ) (i : Nat)
    (h : i < layer.output_size) :
    (writeForward layer v buf).getD i 0 = (layer.forwardList v).getD i 0 := by
  unfold writeForward
  rw [List.getD_append _ _ _ _ (by rw [forwardList_length]; exact h)]

theorem buildLayers_length : ∀ (cfgs : List NetLayerConfig) (s : Nat),
    (buildLayers s cfgs).length = cfgs.length := by
  intro cfgs
  induction cfgs with
  | nil => intro s; rfl
  | cons c rest ih => intro s; simp [buildLayers, ih]

theorem buildLayers_chained : ∀ (cfgs : List NetLayerConfig) (s : Nat),
    chainedFrom s (buildLayers s cfgs) := by
  intro cfgs
  induction cfgs with
  | nil => intro s; trivial
  | cons c rest ih =>
      intro s
      cases c with
      | FullyConnected sz act => exact ⟨rfl, ih _⟩

theorem buildLayers_output_le_wbs : ∀ (cfgs : List NetLayerConfig) (s : Nat),
    ∀ layer ∈ buildLayers s cfgs, layer.output_size ≤ layer.weight_buffer_size := by
  intro cfgs
  induction cfgs with
  | nil => intro s layer h; simp [buildLayers] at h
  | cons c rest ih =>
      intro s layer h
      simp only [buildLayers, List.mem_cons] at h
      rcases h with h | h
      · subst h
        cases c with
        | FullyConnected sz act =>
            simp only [NetLayerConfig.create_layer, NetLayer.output_size,
              NetLayer.weight_buffer_size, FullyConnectedNetLayer.new,
              FullyConnectedNetLayer.weight_buffer_size, List.length_replicate]
            omega
      · exact ih _ layer h

theorem buildLayers_sizes : ∀ (cfgs : List NetLayerConfig) (s : Nat),
    (buildLayers s cfgs).map NetLayer.output_size = cfgs.map NetLayerConfig.size := by
  intro cfgs
  induction cfgs with
  | nil => intro s; rfl
  | cons c rest ih =>
      intro s
      cases c with
      | FullyConnected sz act =>
          simp only [buildLayers, List.map_cons, ih]
          rfl

theorem foldl_max_le_acc (l : List Nat) : ∀ a : Nat, a ≤ l.foldl Nat.max a := by
  induction l with
  | nil => intro a; exact le_refl a
  | cons y ys ih => intro a; exact le_trans (Nat.le_max_left a y) (ih (Nat.max a y))

theorem mem_le_foldl_max (l : List Nat) : ∀ x ∈ l, ∀ a : Nat, x ≤ l.foldl Nat.max a := by
  induction l with
  | nil => intro x hx; simp at hx
  | cons y ys ih =>
      intro x hx a
      rcases List.mem_cons.mp hx with h | h
      · subst h
        exact le_trans (Nat.le_max_right a x) (foldl_max_le_acc ys _)
      · exact ih x h _

theorem chainForward_length_last : ∀ (layers : List NetLayer) (v : List ℚ),
    chainedFrom v.length layers →
    ∀ last, layers.getLast? = some last →
      (chainForward layers v).length = last.output_size := by
  intro layers
  induction layers with
  | nil => intro v _ last h; simp at h
  | cons l rest ih =>
      intro v hc last hlast
      obtain ⟨h1, h2⟩ := hc
      cases rest with
      | nil =>
          simp only [List.getLast?_singleton, Option.some.injEq] at hlast
          subst hlast
          simp only [chainForward, List.foldl_cons, List.foldl_nil]
          exact forwardList_length l v
      | cons r rs =>
          have hlast2 : (r :: rs).getLast? = some last := by
            rw [← hlast, List.getLast?_cons_cons]
          have hc2 : chainedFrom (l.forwardList v).length (r :: rs) := by
            rw [forwardList_length]; exact h2
          have := ih (l.forwardList v) hc2 last hlast2
          simpa [chainForward] using this

theorem pingPong_fold (M : Nat) :
    ∀ (ms : List NetLayer) (v ib ob : List ℚ),
      chainedFrom v.length ms →
      (∀ layer ∈ ms, layer.output_size ≤ M) →
      ib.length = M → ob.length = M → v.length ≤ M →
      (∀ i, i < v.length → ib.getD i 0 = v.getD i 0) →
      ∃ ib2 ob2,
        ms.foldl (fun st layer => (writeForward layer st.1 st.2, st.1)) (ib, ob) =
          (ib2, ob2) ∧
        ib2.length = M ∧ ob2.length = M ∧
        (chainForward ms v).length ≤ M ∧
        (∀ i, i < (chainForward ms v).length →
          ib2.getD i 0 = (chainForward ms v).getD i 0) := by
  intro ms
  induction ms with
  | nil =>
      intro v ib ob _ _ h1 h2 h3 h4
      exact ⟨ib, ob, rfl, h1, h2, h3, h4⟩
  | cons l rest ih =>
      intro v ib ob hc hsz hib hob hvM hagree
      obtain ⟨hci, hcr⟩ := hc
      have hlM : l.output_size ≤ M := hsz l (List.mem_cons_self _ _)
      have hfwd : l.forwardList ib = l.forwardList v :=
        forwardList_congr l ib v (fun i hi => hagree i (hci ▸ hi))
      have hv1len : (l.forwardList v).length = l.output_size := forwardList_length l v
      have hib1len : (writeForward l ib ob).length = M := by
        rw [writeForward_length l ib ob (by rw [hob]; exact hlM)]
        exact hob
      have hib1agree : ∀ i, i < (l.forwardList v).length →
          (writeForward l ib ob).getD i 0 = (l.forwardList v).getD i 0 := by
        intro i hi
        rw [writeForward_getD l ib ob i (by omega), hfwd]
      have hc2 : chainedFrom (l.forwardList v).length rest := by
        rw [hv1len]; exact hcr
      obtain ⟨ib2, ob2, hfold, p1, p2, p3, p4⟩ :=
        ih (l.forwardList v) (writeForward l ib ob) ib hc2
          (fun layer h => hsz layer (List.mem_cons_of_mem _ h))
          hib1len hib (by omega) hib1agree
      exact ⟨ib2, ob2, hfold, p1, p2, p3, p4⟩

theorem getD_concat_self {α : Type} (l : List α) (x d : α) :
    (l ++ [x]).getD l.length d = x := by
  rw [List.getD_eq_getElem?_getD, List.getElem?_append_right (le_refl _)]
  simp

theorem getLast?_cons_of_ne {α : Type} (x : α) (l : List α) (h : l ≠ []) :
    (x :: l).getLast? = l.getLast? := by
  cases l with
  | nil => exact absurd rfl h
  | cons y ys => exact List.getLast?_cons_cons

theorem chainForward_concat (ms : List NetLayer) (x : NetLayer) (v : List ℚ) :
    chainForward (ms ++ [x]) v = x.forwardList (chainForward ms v) := by
  simp [chainForward, List.foldl_append]

theorem chainedFrom_append_last :
    ∀ (middle : List NetLayer) (lastL : NetLayer) (s : Nat),
      chainedFrom s (middle ++ [lastL]) →
      chainedFrom s middle ∧
        ∀ v : List ℚ, v.length = s →
          lastL.input_size = (chainForward middle v).length := by
  intro middle
  induction middle with
  | nil =>
      intro lastL s h
      exact ⟨trivial, fun v hv => by
        simp only [chainForward, List.foldl_nil]
        rw [hv]
        exact h.1⟩
  | cons m ms ih =>
      intro lastL s h
      obtain ⟨h1, h2⟩ := h
      obtain ⟨ihc, ihl⟩ := ih lastL m.output_size h2
      refine ⟨⟨h1, ihc⟩, ?_⟩
      intro v hv
      have : lastL.input_size = (chainForward ms (m.forwardList v)).length :=
        ihl (m.forwardList v) (forwardList_length m v)
      exact this

theorem create_net_eq (c : NetConfig) (last : NetLayer)
    (h1 : 0 < c.input_size) (h2 : 0 < c.layers.length)
    (hlast : (buildLayers c.input_size c.layers).getLast? = some last) :
    c.create_net = some
      { input_size := c.input_size, output_size := last.output_size,
        max_buffer_size := ((buildLayers c.input_size c.layers).map
          NetLayer.weight_buffer_size).foldl Nat.max 0,
        layers := buildLayers c.input_size c.layers } := by
  unfold NetConfig.create_net
  rw [if_pos ⟨h1, h2⟩, hlast]

/-- C10: predict is only supported for networks of at least two layers.
For a configuration with at least one hidden layer and an input of the
declared input size, predict returns some vector equal to the chained
forward passes of the layers, of length output_size; for a
configuration with no hidden layers the constructed network has exactly
one layer and predict fails its internal num_layers > 1 assertion,
returning none instead of computing a forward pass. -/
theorem getD_last {α : Type} : ∀ (l : List α) (d : α) (h : l ≠ []),
    l.getD (l.length - 1) d = l.getLast h := by
  intro l
  induction l with
  | nil => intro d h; exact absurd rfl h
  | cons x xs ih =>
      intro d h
      cases xs with
      | nil => rfl
      | cons y ys =>
          have h2 : (y :: ys) ≠ [] := by simp
          have hlen : (x :: y :: ys).length - 1 = ((y :: ys).length - 1) + 1 := by
            simp [List.length_cons]
          rw [hlen, List.getD_cons_succ, ih d h2]
          exact (List.getLast_cons h2).symm

theorem net_predict_spec :
    (∀ (ins outs : Nat) (hidden : List Nat) (act : ActivationFn) (input : List ℚ),
      hidden ≠ [] → 0 < ins → 0 < outs → (∀ s ∈ hidden, 0 < s) →
      input.length = ins →
      ∃ cfg net, NetConfig.new_fully_connected ins outs hidden act = some cfg ∧
        cfg.create_net = some net ∧
        net.layers.length = hidden.length + 1 ∧
        net.predict input = some (chainForward net.layers input) ∧
        (chainForward net.layers input).length = outs ∧
        net.output_size = outs) ∧
    (∀ (ins outs : Nat) (act : ActivationFn) (input : List ℚ),
      0 < ins → 0 < outs →
      ∃ cfg net, NetConfig.new_fully_connected ins outs [] act = some cfg ∧
        cfg.create_net = some net ∧
        net.layers.length = 1 ∧
        net.predict input = none) := by
  constructor
  · intro ins outs hidden act input hne hins houts hpos hinput
    set cfgL : List NetLayerConfig :=
      hidden.map (fun s => NetLayerConfig.FullyConnected s act) ++
        [NetLayerConfig.FullyConnected outs act] with hcfgL
    have hcfg : NetConfig.new_fully_connected ins outs hidden act =
        some { input_size := ins, layers := cfgL } := by
      unfold NetConfig.new_fully_connected
      rw [if_pos ⟨hins, houts, hpos⟩]
    set layers := buildLayers ins cfgL with hlayers
    have hcfgLlen : cfgL.length = hidden.length + 1 := by
      rw [hcfgL]; simp
    have hlayerslen : layers.length = hidden.length + 1 := by
      rw [hlayers, buildLayers_length]; exact hcfgLlen
    have hhid1 : 1 ≤ hidden.length := List.length_pos.mpr hne
    have hlayersne : layers ≠ [] := by
      intro h
      rw [h] at hlayerslen
      simp at hlayerslen
    obtain ⟨last, hlast⟩ : ∃ x, layers.getLast? = some x :=
      Option.isSome_iff_exists.mp (List.getLast?_isSome.mpr hlayersne)
    set M := (layers.map NetLayer.weight_buffer_size).foldl Nat.max 0 with hM
    have hclen : 0 < cfgL.length := by omega
    have hnet : NetConfig.create_net { input_size := ins, layers := cfgL } =
        some { input_size := ins, output_size := last.output_size,
               max_buffer_size := M, layers := layers } :=
      create_net_eq { input_size := ins, layers := cfgL } last hins hclen hlast
    have hchained : chainedFrom input.length layers := by
      rw [hinput, hlayers]
      exact buildLayers_chained cfgL ins
    have hszM : ∀ layer ∈ layers, layer.output_size ≤ M := by
      intro layer hmem
      refine le_trans (buildLayers_output_le_wbs cfgL ins layer ?_) ?_
      · rw [← hlayers]; exact hmem
      · exact mem_le_foldl_max _ _ (List.mem_map_of_mem _ hmem) 0
    obtain ⟨l0, tail, hL⟩ := List.exists_cons_of_ne_nil hlayersne
    have htailne : tail ≠ [] := by
      intro h
      rw [hL, h] at hlayerslen
      simp only [List.length_singleton] at hlayerslen
      have hl0 : hidden.length = 0 := by omega
      exact hne (List.eq_nil_of_length_eq_zero hl0)
    have hsurgery : tail.dropLast ++ [tail.getLast htailne] = tail :=
      List.dropLast_append_getLast htailne
    have hlastT : tail.getLast htailne = last := by
      have h1 : tail.getLast? = some last := by
        rw [← getLast?_cons_of_ne l0 tail htailne, ← hL]
        exact hlast
      rw [List.getLast?_eq_getLast tail htailne] at h1
      exact (Option.some.injEq _ _).mp h1
    have hc0 : l0.input_size = input.length ∧ chainedFrom l0.output_size tail := by
      rw [hL] at hchained
      exact hchained
    obtain ⟨hcmid, hcinput⟩ :=
      chainedFrom_append_last tail.dropLast (tail.getLast htailne) l0.output_size
        (by rw [hsurgery]; exact hc0.2)
    have hl0M : l0.output_size ≤ M :=
      hszM l0 (by rw [hL]; exact List.mem_cons_self _ _)
    have hibA : (writeForward l0 input (List.replicate M 0)).length = M := by
      rw [writeForward_length l0 input _ (by rw [List.length_replicate]; exact hl0M),
        List.length_replicate]
    have hagree0 : ∀ i, i < (l0.forwardList input).length →
        (writeForward l0 input (List.replicate M 0)).getD i 0 =
          (l0.forwardList input).getD i 0 := by
      intro i hi
      rw [forwardList_length] at hi
      exact writeForward_getD l0 input _ i hi
    obtain ⟨ibF, obF, hfoldEq, q1, q2, q3, q4⟩ :=
      pingPong_fold M tail.dropLast (l0.forwardList input)
        (writeForward l0 input (List.replicate M 0)) (List.replicate M 0)
        (by rw [forwardList_length]; exact hcmid)
        (fun layer h => hszM layer
          (by rw [hL]; exact List.mem_cons_of_mem _ (List.dropLast_subset _ h)))
        hibA (by simp) (by rw [forwardList_length]; exact hl0M)
        hagree0
    have hinlast : last.input_size =
        (chainForward tail.dropLast (l0.forwardList input)).length := by
      rw [← hlastT]
      exact hcinput (l0.forwardList input) (forwardList_length l0 input)
    have hlastfwd : last.forwardList ibF =
        last.forwardList (chainForward tail.dropLast (l0.forwardList input)) := by
      apply forwardList_congr
      intro i hi
      exact q4 i (by rw [← hinlast]; exact hi)
    have hchainfull : chainForward layers input =
        last.forwardList (chainForward tail.dropLast (l0.forwardList input)) := by
      rw [hL]
      have hstep : chainForward (l0 :: tail) input =
          chainForward tail (l0.forwardList input) := rfl
      rw [hstep]
      nth_rewrite 1 [← hsurgery]
      rw [chainForward_concat, hlastT]
    have hget0 : layers.getD 0 dummyLayer = l0 := by
      rw [hL]; rfl
    have hgetlast : layers.getD (layers.length - 1) dummyLayer = last := by
      rw [hL, getD_last (l0 :: tail) dummyLayer (by simp)]
      rw [List.getLast_cons htailne]
      exact hlastT
    have hdrop : (layers.drop 1).dropLast = tail.dropLast := by
      rw [hL]
      rfl
    have hchainlen : (chainForward layers input).length = last.output_size :=
      chainForward_length_last layers input hchained last hlast
    have houtlast : last.output_size = outs := by
      have h1 : (layers.map NetLayer.output_size).getLast? =
          some last.output_size := by
        calc (layers.map NetLayer.output_size).getLast?
            = layers.getLast?.map NetLayer.output_size := List.getLast?_map _ _
          _ = some last.output_size := by rw [hlast]; rfl
      have h2 : layers.map NetLayer.output_size = cfgL.map NetLayerConfig.size := by
        rw [hlayers]
        exact buildLayers_sizes cfgL ins
      have h3 : cfgL.map NetLayerConfig.size =
          (hidden.map (fun s => NetLayerConfig.FullyConnected s act)).map
            NetLayerConfig.size ++ [outs] := by
        rw [hcfgL, List.map_append]
        rfl
      rw [h2, h3, List.getLast?_concat] at h1
      exact ((Option.some.injEq _ _).mp h1).symm
    have hpredict : Net.predict
        { input_size := ins, output_size := last.output_size,
          max_buffer_size := M, layers := layers } input =
        some (chainForward layers input) := by
      unfold Net.predict Net.predict_with_buffers
      rw [if_pos ⟨hinput, by simp, by simp, by simp,
        by show 1 < layers.length; omega⟩]
      show some (writeForward (layers.getD (layers.length - 1) dummyLayer)
          (((layers.drop 1).dropLast).foldl
            (fun st layer => (writeForward layer st.1 st.2, st.1))
            (writeForward (layers.getD 0 dummyLayer) input (List.replicate M 0),
              List.replicate M 0)).1
          (List.replicate last.output_size 0)) =
        some (chainForward layers input)
      rw [hdrop, hget0, hgetlast, hfoldEq]
      show some (writeForward last ibF (List.replicate last.output_size 0)) =
        some (chainForward layers input)
      unfold writeForward
      have hdropz : (List.replicate (NetLayer.output_size last) (0 : ℚ)).drop
          last.output_size = [] := by
        rw [List.drop_replicate]
        simp
      rw [hdropz, List.append_nil, hlastfwd, ← hchainfull]
    refine ⟨{ input_size := ins, layers := cfgL },
      { input_size := ins, output_size := last.output_size,
        max_buffer_size := M, layers := layers },
      hcfg, hnet, hlayerslen, hpredict, ?_, houtlast⟩
    rw [hchainlen, houtlast]
  · intro ins outs act input hins houts
    have hcfg : NetConfig.new_fully_connected ins outs [] act =
        some { input_size := ins,
               layers := [NetLayerConfig.FullyConnected outs act] } := by
      unfold NetConfig.new_fully_connected
      rw [if_pos ⟨hins, houts, by simp⟩]
      rfl
    have hbuild : buildLayers ins [NetLayerConfig.FullyConnected outs act] =
        [NetLayerConfig.create_layer (NetLayerConfig.FullyConnected outs act) ins] :=
      rfl
    have hnet := create_net_eq
      { input_size := ins, layers := [NetLayerConfig.FullyConnected outs act] }
      (NetLayerConfig.create_layer (NetLayerConfig.FullyConnected outs act) ins)
      hins (by simp) (by rw [hbuild]; rfl)
    refine ⟨_, _, hcfg, hnet, ?_, ?_⟩
    · show (buildLayers ins [NetLayerConfig.FullyConnected outs act]).length = 1
      rw [hbuild]
      rfl
    · unfold Net.predict Net.predict_with_buffers
      rw [if_neg ?hcond]
      case hcond =>
        intro hcon
        have h5 := hcon.2.2.2.2
        have h6 : ¬ ((1 : Nat) < 1) := by omega
        exact h6 h5
/-- C10 witness: the theorem applied at the concrete configuration of
the source tests, input size four, one hidden layer of three, output
size two, with an identity activation model, plus the single-layer
rejection at the same sizes. -/
theorem net_predict_spec_witness :
    (∃ cfg net, NetConfig.new_fully_connected 4 2 [3]
        ⟨fun x => x, fun _ => 1⟩ = some cfg ∧
      cfg.create_net = some net ∧
      net.layers.length = [3].length + 1 ∧
      net.predict [0, 0, 0, 0] = some (chainForward net.layers [0, 0, 0, 0]) ∧
      (chainForward net.layers [0, 0, 0, 0]).length = 2 ∧
      net.output_size = 2) ∧
    (∃ cfg net, NetConfig.new_fully_connected 4 2 []
        ⟨fun x => x, fun _ => 1⟩ = some cfg ∧
      cfg.create_net = some net ∧
      net.layers.length = 1 ∧
      net.predict [0, 0, 0, 0] = none) :=
  ⟨net_predict_spec.1 4 2 [3] ⟨fun x => x, fun _ => 1⟩ [0, 0, 0, 0]
      (by simp) (by norm_num) (by norm_num) (by simp) rfl,
   net_predict_spec.2 4 2 ⟨fun x => x, fun _ => 1⟩ [0, 0, 0, 0]
      (by norm_num) (by norm_num)⟩

/-! ## Single-threaded trainer (src/train/backprop/singlethreaded.rs,
src/train/error.rs, src/train/buffers.rs) -/

/-- Modelled from the spec: the TrainingSet and TrainingSetIterator used
by the trainer files belong to an older revision whose source is not
under src; the spec describes the dataset interface as a forward-only
iterator yielding one (independent columns, dependent columns) pair per
row. A training set is modelled as the list of these pairs and the
iterator by structural recursion over the list. -/
structure Sample where
  inputs : List ℚ
  expected : List ℚ
deriving DecidableEq

/-- Error function variants from src/func/error.rs. -/
inductive ErrorFn where
  | SquaredError

/-- Translation of ErrorFn::get_error: half the squared difference. -/
def ErrorFn.get_error : ErrorFn → ℚ → ℚ → ℚ
  | .SquaredError, expected, actual => (1 / 2) * ((expected - actual) * (expected - actual))

/-- Translation of ErrorFn::get_error_derivative. -/
def ErrorFn.get_error_derivative : ErrorFn → ℚ → ℚ → ℚ
  | .SquaredError, expected, actual => actual - expected

/-- Backprop dispatch of the NetLayer enum. -/
def NetLayer.backprop :
    NetLayer → List ℚ → List ℚ → List ℚ → ℚ → List ℚ → List ℚ → List ℚ × List ℚ
  | .FullyConnected layer, output_errors, inputs, outputs, learning_rate,
      input_errors, delta_target =>
      layer.backprop output_errors inputs outputs learning_rate input_errors delta_target

/-- Translation of FullyConnectedNetLayer::add_weights_from: elementwise
add of the weight part, then of the bias part at offset num_weights. -/
def FullyConnectedNetLayer.add_weights_from (l : FullyConnectedNetLayer)
    (source : List ℚ) : FullyConnectedNetLayer :=
  { l with
    weights := (List.range l.weights.length).map
      (fun i => l.weights.getD i 0 + source.getD i 0),
    biases := (List.range l.biases.length).map
      (fun i => l.biases.getD i 0 + source.getD (i + l.weights.length) 0) }

/-- Add-weights dispatch of the NetLayer enum. -/
def NetLayer.add_weights_from : NetLayer → List ℚ → NetLayer
  | .FullyConnected layer, source => .FullyConnected (layer.add_weights_from source)

/-- Per-worker training buffers from src/train/buffers.rs. The two
per-layer row arenas and the weight-delta arena are modelled as lists of
rows; the prefix-sum row arena invariant makes the rows contiguous and
disjoint, so per-row state passing is faithful. -/
structure TrainingBuffers where
  input_buffer : List ℚ
  expected_output_buffer : List ℚ
  output_buffers : List (List ℚ)
  error_gradient_buffers : List (List ℚ)
  input_error_buffer : List ℚ
  error_stats : Stats
  weight_deltas : List (List ℚ)

/-- Translation of TrainingBuffers::for_net: zeroed buffers sized from
the network, one output row and one error-gradient row per layer and one
weight-delta row per layer of that layer weight buffer size. -/
def TrainingBuffers.for_net (net : Net) : TrainingBuffers :=
  { input_buffer := List.replicate net.input_size 0,
    expected_output_buffer := List.replicate net.output_size 0,
    output_buffers := net.layers.map (fun l => List.replicate l.output_size 0),
    error_gradient_buffers := net.layers.map (fun l => List.replicate l.output_size 0),
    input_error_buffer := List.replicate net.input_size 0,
    error_stats := Stats.new,
    weight_deltas := net.layers.map (fun l => List.replicate l.weight_buffer_size 0) }

/-- Forward-pass loop of forward_pass_and_compute_error: row zero is the
first layer applied to the input buffer, and row i the layer i applied
to row i-1, written in index order as the source split_rows loop does. -/
def forwardRows (layers : List NetLayer) (input : List ℚ)
    (rows : List (List ℚ)) : List (List ℚ) :=
  (List.range layers.length).foldl
    (fun rs i =>
      rs.set i ((layers.getD i dummyLayer).forwardList
        (if i = 0 then input else rs.getD (i - 1) [])))
    rows

/-- Error sum loop of forward_pass_and_compute_error: sum of the error
function over the output columns, in source fold order. -/
def sampleErrorSum (net : Net) (ef : ErrorFn) (expected out : List ℚ) : ℚ :=
  (List.range net.output_size).foldl
    (fun acc k => acc + ef.get_error (expected.getD k 0) (out.getD k 0)) 0

/-- Translation of forward_pass_and_compute_error (src/train/error.rs):
copy the sample columns into the input and expected buffers, run the
forward pass through the output rows, report the summed error into the
statistics, and store the per-output error derivative into the last
error-gradient row. -/
def forward_pass_and_compute_error (net : Net) (ef : ErrorFn)
    (bufs : TrainingBuffers) (sample : Sample) : TrainingBuffers :=
  let input_buffer := sample.inputs
  let expected_output_buffer := sample.expected
  let output_buffers := forwardRows net.layers input_buffer bufs.output_buffers
  let out := output_buffers.getD (net.layers.length - 1) []
  let error_sum := sampleErrorSum net ef expected_output_buffer out
  let grad_row := (List.range net.output_size).map
    (fun k => ef.get_error_derivative (expected_output_buffer.getD k 0) (out.getD k 0))
  { bufs with
    input_buffer := input_buffer,
    expected_output_buffer := expected_output_buffer,
    output_buffers := output_buffers,
    error_gradient_buffers := bufs.error_gradient_buffers.set
      (bufs.error_gradient_buffers.length - 1) grad_row,
    error_stats := bufs.error_stats.report error_sum }

/-- One iteration of the backward layer loop of
train_backprop_single_batch for layer_index at least one: split the
error-gradient rows layer_index - 1 and layer_index, backprop the layer
with the neighbouring output rows, accumulate into the weight-delta row
of the layer. -/
def backpropLayerStep (net : Net) (learning_rate : ℚ)
    (bufs : TrainingBuffers) (layer_index : Nat) : TrainingBuffers :=
  let r := (net.layers.getD layer_index dummyLayer).backprop
    (bufs.error_gradient_buffers.getD layer_index [])
    (bufs.output_buffers.getD (layer_index - 1) [])
    (bufs.output_buffers.getD layer_index [])
    learning_rate
    (bufs.error_gradient_buffers.getD (layer_index - 1) [])
    (bufs.weight_deltas.getD layer_index [])
  { bufs with
    error_gradient_buffers := bufs.error_gradient_buffers.set (layer_index - 1) r.1,
    weight_deltas := bufs.weight_deltas.set layer_index r.2 }

/-- Final first-layer backprop call of train_backprop_single_batch:
errors from the first error-gradient row, inputs from the input buffer,
results into the input-error buffer and the first weight-delta row. -/
def backpropFirstStep (net : Net) (learning_rate : ℚ)
    (bufs : TrainingBuffers) : TrainingBuffers :=
  let r := (net.layers.getD 0 dummyLayer).backprop
    (bufs.error_gradient_buffers.getD 0 [])
    bufs.input_buffer
    (bufs.output_buffers.getD 0 [])
    learning_rate
    bufs.input_error_buffer
    (bufs.weight_deltas.getD 0 [])
  { bufs with
    input_error_buffer := r.1,
    weight_deltas := bufs.weight_deltas.set 0 r.2 }

/-- One sample of the mini-batch inner loop: forward pass with error
recording, then the backward layer loop from the top layer down to
layer one, then the first layer. The network is read only; all deltas
go to the weight-delta buffer. -/
def processSample (net : Net) (learning_rate : ℚ) (ef : ErrorFn)
    (bufs : TrainingBuffers) (sample : Sample) : TrainingBuffers :=
  let bufs1 := forward_pass_and_compute_error net ef bufs sample
  let bufs2 := (((List.range (net.layers.length - 1)).map (fun k => k + 1)).reverse).foldl
    (backpropLayerStep net learning_rate) bufs1
  backpropFirstStep net learning_rate bufs2

/-- Epoch counter initialization of the mini-batch inner loop: minus one
for a full batch (never reaching zero), else the mini-batch size; the
size comes from MiniBatchSize::get_mini_batch_size, which returns either
None or a NonZeroU32, so it is positive. -/
def initEpochs : Option ℕ+ → Int
  | none => -1
  | some size => ((size : Nat) : Int)

/-- Inner while loop of train_backprop_single_batch: while the epoch
counter is nonzero and the iterator has a next row, process one sample
and decrement the counter. Returns the buffers and the remaining
samples. -/
def miniBatchInner (net : Net) (learning_rate : ℚ) (ef : ErrorFn) :
    Int → List Sample → TrainingBuffers → TrainingBuffers × List Sample
  | _, [], bufs => (bufs, [])
  | epochs, s :: rest, bufs =>
      if epochs = 0 then (bufs, s :: rest)
      else miniBatchInner net learning_rate ef (epochs - 1) rest
        (processSample net learning_rate ef bufs s)

/-- Translation of the weight-delta reset at the top of each mini-batch:
reset the whole delta arena to zero. -/
def zeroWeightDeltas (bufs : TrainingBuffers) : TrainingBuffers :=
  { bufs with weight_deltas :=
      bufs.weight_deltas.map (fun row => List.replicate row.length 0) }

/-- Translation of WeightBuffer::add_to_net: each layer adds its delta
row into its weights. -/
def addDeltasToNet (deltas : List (List ℚ)) (net : Net) : Net :=
  { net with
    layers := (List.range net.layers.length).map
                (fun i => (net.layers.getD i dummyLayer).add_weights_from
                  (deltas.getD i [])) }

theorem miniBatchInner_remaining_le (net : Net) (lr : ℚ) (ef : ErrorFn) :
    ∀ (samples : List Sample) (e : Int) (bufs : TrainingBuffers),
      (miniBatchInner net lr ef e samples bufs).2.length ≤ samples.length := by
  intro samples
  induction samples with
  | nil => intro e bufs; simp [miniBatchInner]
  | cons s rest ih =>
      intro e bufs
      by_cases he : e = 0
      · simp [miniBatchInner, he]
      · simp only [miniBatchInner, he, if_false, ite_false]
        exact le_trans (ih _ _) (by simp)

theorem miniBatchInner_remaining_lt (net : Net) (lr : ℚ) (ef : ErrorFn)
    (e : Int) (samples : List Sample) (bufs : TrainingBuffers)
    (he : e ≠ 0) (hs : samples ≠ []) :
    (miniBatchInner net lr ef e samples bufs).2.length < samples.length := by
  cases samples with
  | nil => exact absurd rfl hs
  | cons s rest =>
      simp only [miniBatchInner, he, if_false, ite_false]
      have := miniBatchInner_remaining_le net lr ef rest (e - 1)
        (processSample net lr ef bufs s)
      simp only [List.length_cons]
      omega

theorem initEpochs_ne_zero (bs : Option ℕ+) : initEpochs bs ≠ 0 := by
  cases bs with
  | none => simp [initEpochs]
  | some k =>
      simp only [initEpochs]
      have := k.pos
      omega

/-- Translation of the outer while loop of train_backprop_single_batch:
while samples remain, reset the delta buffer, run the inner loop, and
add the accumulated deltas into the live network weights. The third
component instruments the loop with the number of mini-batches run,
that is, of delta applications. -/
def train_backprop_single_batch (net : Net) (samples : List Sample)
    (bufs : TrainingBuffers) (mini_batch_size : Option ℕ+)
    (learning_rate : ℚ) (ef : ErrorFn) : Net × TrainingBuffers × Nat :=
  if h : samples = [] then (net, bufs, 0)
  else
    let r := miniBatchInner net learning_rate ef (initEpochs mini_batch_size)
      samples (zeroWeightDeltas bufs)
    let net1 := addDeltasToNet r.1.weight_deltas net
    let r2 := train_backprop_single_batch net1 r.2 r.1 mini_batch_size learning_rate ef
    (r2.1, r2.2.1, r2.2.2 + 1)
termination_by samples.length
decreasing_by
  exact miniBatchInner_remaining_lt net learning_rate ef (initEpochs mini_batch_size)
    samples (zeroWeightDeltas bufs) (initEpochs_ne_zero mini_batch_size) h

/-- Translation of compute_error_for_batch (src/train/error.rs): reset
the statistics, then run the forward pass with error recording over
every row of the given set. -/
def compute_error_for_batch (net : Net) (samples : List Sample) (ef : ErrorFn)
    (bufs : TrainingBuffers) : TrainingBuffers :=
  samples.foldl (forward_pass_and_compute_error net ef)
    { bufs with error_stats := bufs.error_stats.reset }

/-- Translation of the loop of train_backprop_single_threaded: one
single-batch call over the whole set, then error statistics over the
full set, then one completion check with the incremented batch counter.
The completion predicate closes over the start time, whose wall-clock
reading is outside the model; fuel bounds the unboundedly looping
recursion, returning none when exhausted. The result carries the
network, the statistics, the batch counter (the number of completion
evaluations) and the instrumented total number of mini-batches. -/
def trainLoop (samples : List Sample) (completion : Nat → Stats → Bool)
    (mini_batch_size_fn : Nat → Option ℕ+) (learning_rate_fn : Nat → ℚ)
    (ef : ErrorFn) :
    Nat → Net → TrainingBuffers → Nat → Nat → Option (Net × Stats × Nat × Nat)
  | 0, _, _, _, _ => none
  | fuel + 1, net, bufs, batch_num, mbTotal =>
      let r := train_backprop_single_batch net samples bufs
        (mini_batch_size_fn batch_num) (learning_rate_fn batch_num) ef
      let bufs2 := compute_error_for_batch r.1 samples ef r.2.1
      if completion (batch_num + 1) bufs2.error_stats then
        some (r.1, bufs2.error_stats, batch_num + 1, mbTotal + r.2.2)
      else
        trainLoop samples completion mini_batch_size_fn learning_rate_fn ef
          fuel r.1 bufs2 (batch_num + 1) (mbTotal + r.2.2)

/-- Translation of train_backprop_single_threaded: allocate the buffers
for the network and run the loop from batch zero. -/
def train_backprop_single_threaded (fuel : Nat) (net : Net) (samples : List Sample)
    (completion : Nat → Stats → Bool) (mini_batch_size_fn : Nat → Option ℕ+)
    (learning_rate_fn : Nat → ℚ) (ef : ErrorFn) :
    Option (Net × Stats × Nat × Nat) :=
  trainLoop samples completion mini_batch_size_fn learning_rate_fn ef
    fuel net (TrainingBuffers.for_net net) 0 0

/-! ## Mini-batch structure (claims C3 and C4) -/

/-- Mini-batch chunk decomposition of a sample list by a positive size. -/
def chunksOf (k : ℕ+) : List Sample → List (List Sample)
  | [] => []
  | s :: rest => ((s :: rest).take (k : Nat)) :: chunksOf k ((s :: rest).drop (k : Nat))
termination_by l => l.length
decreasing_by
  simp only [List.length_drop, List.length_cons]
  have := k.pos
  omega

/-- Mini-batch chunks of a run: one chunk holding every sample for a
full-batch run, else consecutive chunks of the mini-batch size. -/
def miniBatchChunks : Option ℕ+ → List Sample → List (List Sample)
  | none, l => if l = [] then [] else [l]
  | some k, l => chunksOf k l

/-- Claim form of the mini-batch pass: per mini-batch chunk, zero the
delta buffer, process every sample of the chunk against the frozen
chunk-start network (the network passed to every processSample of the
chunk is the same value), accumulating only into the delta buffer, then
add the accumulated deltas into the live weights exactly once after the
chunk samples are exhausted; the counter counts one application per
chunk. -/
def specChunkedRun (learning_rate : ℚ) (ef : ErrorFn) :
    Net × TrainingBuffers × Nat → List (List Sample) → Net × TrainingBuffers × Nat
  | st, [] => st
  | st, chunk :: rest =>
      let bufs1 := chunk.foldl (processSample st.1 learning_rate ef)
        (zeroWeightDeltas st.2.1)
      specChunkedRun learning_rate ef
        (addDeltasToNet bufs1.weight_deltas st.1, bufs1, st.2.2 + 1) rest

theorem miniBatchInner_take_drop (net : Net) (lr : ℚ) (ef : ErrorFn) :
    ∀ (samples : List Sample) (k : Nat) (bufs : TrainingBuffers),
      miniBatchInner net lr ef (k : Int) samples bufs =
        (List.foldl (processSample net lr ef) bufs (samples.take k),
          samples.drop k) := by
  intro samples
  induction samples with
  | nil => intro k bufs; simp [miniBatchInner]
  | cons s rest ih =>
      intro k bufs
      cases k with
      | zero => simp [miniBatchInner]
      | succ m =>
          have hne : ((m + 1 : Nat) : Int) ≠ 0 := by omega
          simp only [miniBatchInner, hne, ite_false]
          have hm : ((m + 1 : Nat) : Int) - 1 = ((m : Nat) : Int) := by push_cast; ring
          rw [hm, ih m (processSample net lr ef bufs s)]
          simp

theorem miniBatchInner_neg (net : Net) (lr : ℚ) (ef : ErrorFn) :
    ∀ (samples : List Sample) (e : Int) (bufs : TrainingBuffers), e < 0 →
      miniBatchInner net lr ef e samples bufs =
        (List.foldl (processSample net lr ef) bufs samples, []) := by
  intro samples
  induction samples with
  | nil => intro e bufs _; simp [miniBatchInner]
  | cons s rest ih =>
      intro e bufs he
      have hne : e ≠ 0 := by omega
      simp only [miniBatchInner, hne, ite_false]
      rw [ih (e - 1) _ (by omega)]
      simp

theorem specChunkedRun_counter (lr : ℚ) (ef : ErrorFn) :
    ∀ (chunks : List (List Sample)) (n : Net) (b : TrainingBuffers) (c : Nat),
      specChunkedRun lr ef (n, b, c) chunks =
        ((specChunkedRun lr ef (n, b, 0) chunks).1,
         (specChunkedRun lr ef (n, b, 0) chunks).2.1,
         (specChunkedRun lr ef (n, b, 0) chunks).2.2 + c) := by
  intro chunks
  induction chunks with
  | nil => intro n b c; simp [specChunkedRun]
  | cons ch rest ih =>
      intro n b c
      simp only [specChunkedRun]
      rw [ih _ _ (c + 1), ih _ _ (0 + 1)]
      simp only [Prod.mk.injEq]
      exact ⟨trivial, trivial, by omega⟩

theorem single_batch_nil (net : Net) (bufs : TrainingBuffers) (bs : Option ℕ+)
    (lr : ℚ) (ef : ErrorFn) :
    train_backprop_single_batch net [] bufs bs lr ef = (net, bufs, 0) := by
  rw [train_backprop_single_batch]
  simp

theorem single_batch_cons (net : Net) (s : Sample) (rest : List Sample)
    (bufs : TrainingBuffers) (bs : Option ℕ+) (lr : ℚ) (ef : ErrorFn) :
    train_backprop_single_batch net (s :: rest) bufs bs lr ef =
      ((train_backprop_single_batch
          (addDeltasToNet (miniBatchInner net lr ef (initEpochs bs) (s :: rest)
            (zeroWeightDeltas bufs)).1.weight_deltas net)
          (miniBatchInner net lr ef (initEpochs bs) (s :: rest)
            (zeroWeightDeltas bufs)).2
          (miniBatchInner net lr ef (initEpochs bs) (s :: rest)
            (zeroWeightDeltas bufs)).1 bs lr ef).1,
       (train_backprop_single_batch
          (addDeltasToNet (miniBatchInner net lr ef (initEpochs bs) (s :: rest)
            (zeroWeightDeltas bufs)).1.weight_deltas net)
          (miniBatchInner net lr ef (initEpochs bs) (s :: rest)
            (zeroWeightDeltas bufs)).2
          (miniBatchInner net lr ef (initEpochs bs) (s :: rest)
            (zeroWeightDeltas bufs)).1 bs lr ef).2.1,
       (train_backprop_single_batch
          (addDeltasToNet (miniBatchInner net lr ef (initEpochs bs) (s :: rest)
            (zeroWeightDeltas bufs)).1.weight_deltas net)
          (miniBatchInner net lr ef (initEpochs bs) (s :: rest)
            (zeroWeightDeltas bufs)).2
          (miniBatchInner net lr ef (initEpochs bs) (s :: rest)
            (zeroWeightDeltas bufs)).1 bs lr ef).2.2 + 1) := by
  rw [train_backprop_single_batch]
  rw [dif_neg (by simp)]

theorem chunksOf_cons (k : ℕ+) (s : Sample) (rest : List Sample) :
    chunksOf k (s :: rest) =
      ((s :: rest).take (k : Nat)) :: chunksOf k ((s :: rest).drop (k : Nat)) := by
  rw [chunksOf]

/-- C4: while the samples of one mini-batch are processed, the live
network weights are never modified: the single-batch pass equals the
chunked run in which every sample of a chunk is processed against the
identical frozen chunk-start network, all deltas accumulate only into
the separate weight-delta buffer, which is zeroed at the start of the
chunk, and the accumulated deltas are added to the live weights exactly
once per mini-batch, after its samples are exhausted. -/
theorem minibatch_frozen_weights_spec :
    ∀ (samples : List Sample) (net : Net) (bufs : TrainingBuffers)
      (bs : Option ℕ+) (lr : ℚ) (ef : ErrorFn),
      train_backprop_single_batch net samples bufs bs lr ef =
        specChunkedRun lr ef (net, bufs, 0) (miniBatchChunks bs samples) := by
  have H : ∀ (n : Nat) (samples : List Sample), samples.length ≤ n →
      ∀ (net : Net) (bufs : TrainingBuffers) (bs : Option ℕ+) (lr : ℚ) (ef : ErrorFn),
      train_backprop_single_batch net samples bufs bs lr ef =
        specChunkedRun lr ef (net, bufs, 0) (miniBatchChunks bs samples) := by
    intro n
    induction n with
    | zero =>
        intro samples hlen net bufs bs lr ef
        have hnil : samples = [] := List.eq_nil_of_length_eq_zero (by omega)
        subst hnil
        rw [single_batch_nil]
        cases bs <;> simp [miniBatchChunks, chunksOf, specChunkedRun]
    | succ n ih =>
        intro samples hlen net bufs bs lr ef
        cases samples with
        | nil =>
            rw [single_batch_nil]
            cases bs <;> simp [miniBatchChunks, chunksOf, specChunkedRun]
        | cons s rest =>
            rw [single_batch_cons]
            cases bs with
            | none =>
                rw [show initEpochs none = -1 from rfl]
                rw [miniBatchInner_neg net lr ef (s :: rest) (-1)
                  (zeroWeightDeltas bufs) (by norm_num)]
                simp only [single_batch_nil, miniBatchChunks, specChunkedRun]
            | some k =>
                rw [show initEpochs (some k) = (((k : Nat) : Int)) from rfl]
                rw [miniBatchInner_take_drop net lr ef (s :: rest) (k : Nat)
                  (zeroWeightDeltas bufs)]
                have hlen2 : ((s :: rest).drop (k : Nat)).length ≤ n := by
                  have hk := k.pos
                  simp only [List.length_drop, List.length_cons]
                  simp only [List.length_cons] at hlen
                  omega
                rw [ih ((s :: rest).drop (k : Nat)) hlen2]
                rw [show miniBatchChunks (some k) ((s :: rest).drop (k : Nat)) =
                  chunksOf k ((s :: rest).drop (k : Nat)) from rfl]
                rw [show miniBatchChunks (some k) (s :: rest) =
                  chunksOf k (s :: rest) from rfl, chunksOf_cons]
                simp only [specChunkedRun]
                conv_rhs => rw [specChunkedRun_counter]
  intro samples net bufs bs lr ef
  exact H samples.length samples (le_refl _) net bufs bs lr ef

theorem getD_set_self_any {α : Type} (l : List α) (i : Nat) (x d : α)
    (h : i < l.length) : (l.set i x).getD i d = x := by
  rw [List.getD_eq_getElem?_getD, List.getElem?_set_self (by simpa using h)]
  rfl

theorem getD_set_ne_any {α : Type} (l : List α) (i j : Nat) (x d : α) (h : i ≠ j) :
    (l.set i x).getD j d = l.getD j d := by
  rw [List.getD_eq_getElem?_getD, List.getElem?_set_ne h, ← List.getD_eq_getElem?_getD]

theorem chainForward_take_succ (layers : List NetLayer) (input : List ℚ) (m : Nat)
    (hm : m < layers.length) :
    chainForward (layers.take (m + 1)) input =
      (layers.getD m dummyLayer).forwardList (chainForward (layers.take m) input) := by
  have h1 : layers.take (m + 1) = layers.take m ++ [layers.getD m dummyLayer] := by
    rw [List.take_succ]
    congr 1
    rw [List.getElem?_eq_getElem hm]
    simp [List.getD_eq_getElem?_getD, List.getElem?_eq_getElem hm]
  rw [h1, chainForward_concat]

theorem forwardRows_fold (layers : List NetLayer) (input : List ℚ) :
    ∀ (m : Nat), m ≤ layers.length → ∀ rows : List (List ℚ),
      rows.length = layers.length →
      ∃ rows2,
        (List.range m).foldl
          (fun rs i => rs.set i ((layers.getD i dummyLayer).forwardList
            (if i = 0 then input else rs.getD (i - 1) []))) rows = rows2 ∧
        rows2.length = layers.length ∧
        (∀ i, i < m → rows2.getD i [] = chainForward (layers.take (i + 1)) input) ∧
        (∀ i, m ≤ i → rows2.getD i [] = rows.getD i []) := by
  intro m
  induction m with
  | zero =>
      intro _ rows hr
      exact ⟨rows, rfl, hr, fun i hi => absurd hi (by omega), fun i _ => rfl⟩
  | succ m ih =>
      intro hm rows hr
      obtain ⟨r2, hfold, hlen, hin, hout⟩ := ih (by omega) rows hr
      refine ⟨r2.set m ((layers.getD m dummyLayer).forwardList
        (if m = 0 then input else r2.getD (m - 1) [])), ?_, ?_, ?_, ?_⟩
      · rw [List.range_succ, List.foldl_append, hfold]
        simp only [List.foldl_cons, List.foldl_nil]
      · rw [List.length_set]
        exact hlen
      · intro i hi
        by_cases him : i = m
        · subst him
          rw [getD_set_self_any _ _ _ _ (by omega)]
          by_cases h0 : i = 0
          · subst h0
            rw [if_pos rfl, chainForward_take_succ layers input 0 (by omega)]
            simp [chainForward]
          · rw [if_neg h0, hin (i - 1) (by omega),
              chainForward_take_succ layers input i (by omega)]
            have hii : i - 1 + 1 = i := by omega
            rw [hii]
        · rw [getD_set_ne_any _ _ _ _ _ (fun h => him h.symm)]
          exact hin i (by omega)
      · intro i hi
        rw [getD_set_ne_any _ _ _ _ _ (by omega)]
        exact hout i (by omega)

theorem forwardRows_spec (layers : List NetLayer) (input : List ℚ)
    (rows : List (List ℚ)) (hr : rows.length = layers.length) :
    (forwardRows layers input rows).length = layers.length ∧
    (∀ i, i < layers.length →
      (forwardRows layers input rows).getD i [] =
        chainForward (layers.take (i + 1)) input) := by
  obtain ⟨r2, hfold, hlen, hin, _⟩ :=
    forwardRows_fold layers input layers.length (le_refl _) rows hr
  unfold forwardRows
  rw [hfold]
  exact ⟨hlen, hin⟩

/-- Claim form of the error statistics over the full evaluation set:
fold one report of the per-sample error sum of the network on each
sample of the entire set onto freshly reset statistics; this depends
only on the network and the samples, not on any buffer state. -/
def specErrorStats (net : Net) (ef : ErrorFn) (samples : List Sample) : Stats :=
  samples.foldl (fun st sample =>
    st.report (sampleErrorSum net ef sample.expected
      (chainForward net.layers sample.inputs))) Stats.new

theorem forward_pass_stats (net : Net) (ef : ErrorFn) (bufs : TrainingBuffers)
    (sample : Sample) (hrows : bufs.output_buffers.length = net.layers.length)
    (hne : net.layers ≠ []) :
    (forward_pass_and_compute_error net ef bufs sample).error_stats =
      bufs.error_stats.report (sampleErrorSum net ef sample.expected
        (chainForward net.layers sample.inputs)) ∧
    (forward_pass_and_compute_error net ef bufs sample).output_buffers.length =
      net.layers.length := by
  obtain ⟨hlen, hin⟩ := forwardRows_spec net.layers sample.inputs bufs.output_buffers hrows
  have hn : 0 < net.layers.length := List.length_pos.mpr hne
  have hlast : (forwardRows net.layers sample.inputs bufs.output_buffers).getD
      (net.layers.length - 1) [] = chainForward net.layers sample.inputs := by
    rw [hin (net.layers.length - 1) (by omega)]
    have h1 : net.layers.length - 1 + 1 = net.layers.length := by omega
    rw [h1, List.take_length]
  constructor
  · simp only [forward_pass_and_compute_error]
    rw [hlast]
  · simp only [forward_pass_and_compute_error]
    exact hlen

theorem forward_fold_stats (net : Net) (ef : ErrorFn) (hne : net.layers ≠ []) :
    ∀ (samples : List Sample) (bufs : TrainingBuffers),
      bufs.output_buffers.length = net.layers.length →
      (samples.foldl (forward_pass_and_compute_error net ef) bufs).error_stats =
        samples.foldl (fun st sample =>
          st.report (sampleErrorSum net ef sample.expected
            (chainForward net.layers sample.inputs))) bufs.error_stats ∧
      (samples.foldl (forward_pass_and_compute_error net ef) bufs).output_buffers.length =
        net.layers.length := by
  intro samples
  induction samples with
  | nil => intro bufs hb; exact ⟨rfl, hb⟩
  | cons s rest ih =>
      intro bufs hb
      obtain ⟨h1, h2⟩ := forward_pass_stats net ef bufs s hb hne
      simp only [List.foldl_cons]
      obtain ⟨h3, h4⟩ := ih (forward_pass_and_compute_error net ef bufs s) h2
      rw [h3, h1]
      exact ⟨rfl, h4⟩

theorem compute_error_stats (net : Net) (ef : ErrorFn) (hne : net.layers ≠ [])
    (samples : List Sample) (bufs : TrainingBuffers)
    (hrows : bufs.output_buffers.length = net.layers.length) :
    (compute_error_for_batch net samples ef bufs).error_stats =
      specErrorStats net ef samples := by
  unfold compute_error_for_batch specErrorStats
  obtain ⟨h1, _⟩ := forward_fold_stats net ef hne samples
    { bufs with error_stats := bufs.error_stats.reset } hrows
  rw [h1]
  rfl

theorem compute_error_output_len (net : Net) (ef : ErrorFn) (hne : net.layers ≠ [])
    (samples : List Sample) (bufs : TrainingBuffers)
    (hrows : bufs.output_buffers.length = net.layers.length) :
    (compute_error_for_batch net samples ef bufs).output_buffers.length =
      net.layers.length := by
  unfold compute_error_for_batch
  obtain ⟨_, h2⟩ := forward_fold_stats net ef hne samples
    { bufs with error_stats := bufs.error_stats.reset } hrows
  exact h2

theorem foldl_set_length {α : Type} (g : List α → Nat → α) :
    ∀ (idxs : List Nat) (rows : List α),
      (idxs.foldl (fun rs i => rs.set i (g rs i)) rows).length = rows.length := by
  intro idxs
  induction idxs with
  | nil => intro rows; rfl
  | cons i rest ih => intro rows; rw [List.foldl_cons, ih, List.length_set]

theorem forwardRows_length (layers : List NetLayer) (input : List ℚ)
    (rows : List (List ℚ)) : (forwardRows layers input rows).length = rows.length := by
  unfold forwardRows
  exact foldl_set_length
    (fun rs i => (layers.getD i dummyLayer).forwardList
      (if i = 0 then input else rs.getD (i - 1) [])) (List.range layers.length) rows

theorem foldl_backprop_output (net : Net) (lr : ℚ) :
    ∀ (idxs : List Nat) (bufs : TrainingBuffers),
      (idxs.foldl (backpropLayerStep net lr) bufs).output_buffers =
        bufs.output_buffers := by
  intro idxs
  induction idxs with
  | nil => intro bufs; rfl
  | cons i rest ih => intro bufs; rw [List.foldl_cons, ih]; rfl

theorem processSample_output (net : Net) (lr : ℚ) (ef : ErrorFn)
    (bufs : TrainingBuffers) (sample : Sample) :
    (processSample net lr ef bufs sample).output_buffers =
      forwardRows net.layers sample.inputs bufs.output_buffers := by
  unfold processSample
  show ((((List.range (net.layers.length - 1)).map (fun k => k + 1)).reverse).foldl
      (backpropLayerStep net lr)
      (forward_pass_and_compute_error net ef bufs sample)).output_buffers =
    forwardRows net.layers sample.inputs bufs.output_buffers
  rw [foldl_backprop_output]
  rfl

theorem processSample_output_len (net : Net) (lr : ℚ) (ef : ErrorFn)
    (bufs : TrainingBuffers) (sample : Sample) :
    (processSample net lr ef bufs sample).output_buffers.length =
      bufs.output_buffers.length := by
  rw [processSample_output, forwardRows_length]

theorem foldl_processSample_output_len (net : Net) (lr : ℚ) (ef : ErrorFn) :
    ∀ (samples : List Sample) (bufs : TrainingBuffers),
      (samples.foldl (processSample net lr ef) bufs).output_buffers.length =
        bufs.output_buffers.length := by
  intro samples
  induction samples with
  | nil => intro bufs; rfl
  | cons s rest ih =>
      intro bufs
      rw [List.foldl_cons, ih, processSample_output_len]

theorem miniBatchInner_output_len (net : Net) (lr : ℚ) (ef : ErrorFn) :
    ∀ (samples : List Sample) (e : Int) (bufs : TrainingBuffers),
      (miniBatchInner net lr ef e samples bufs).1.output_buffers.length =
        bufs.output_buffers.length := by
  intro samples
  induction samples with
  | nil => intro e bufs; rfl
  | cons s rest ih =>
      intro e bufs
      by_cases he : e = 0
      · simp [miniBatchInner, he]
      · simp only [miniBatchInner, he, ite_false]
        rw [ih (e - 1) (processSample net lr ef bufs s), processSample_output_len]

theorem addDeltasToNet_layers_len (deltas : List (List ℚ)) (net : Net) :
    (addDeltasToNet deltas net).layers.length = net.layers.length := by
  simp [addDeltasToNet]

theorem single_batch_len_invariants :
    ∀ (samples : List Sample) (net : Net) (bufs : TrainingBuffers)
      (bs : Option ℕ+) (lr : ℚ) (ef : ErrorFn),
      (train_backprop_single_batch net samples bufs bs lr ef).1.layers.length =
        net.layers.length ∧
      (train_backprop_single_batch net samples bufs bs lr ef).2.1.output_buffers.length =
        bufs.output_buffers.length := by
  have H : ∀ (n : Nat) (samples : List Sample), samples.length ≤ n →
      ∀ (net : Net) (bufs : TrainingBuffers) (bs : Option ℕ+) (lr : ℚ) (ef : ErrorFn),
      (train_backprop_single_batch net samples bufs bs lr ef).1.layers.length =
        net.layers.length ∧
      (train_backprop_single_batch net samples bufs bs lr ef).2.1.output_buffers.length =
        bufs.output_buffers.length := by
    intro n
    induction n with
    | zero =>
        intro samples hlen net bufs bs lr ef
        have hnil : samples = [] := List.eq_nil_of_length_eq_zero (by omega)
        subst hnil
        rw [single_batch_nil]
        exact ⟨rfl, rfl⟩
    | succ n ih =>
        intro samples hlen net bufs bs lr ef
        cases samples with
        | nil =>
            rw [single_batch_nil]
            exact ⟨rfl, rfl⟩
        | cons s rest =>
            rw [single_batch_cons]
            have hrem := miniBatchInner_remaining_lt net lr ef (initEpochs bs)
              (s :: rest) (zeroWeightDeltas bufs) (initEpochs_ne_zero bs) (by simp)
            obtain ⟨ihl, iho⟩ := ih (miniBatchInner net lr ef (initEpochs bs)
                (s :: rest) (zeroWeightDeltas bufs)).2
              (by simp only [List.length_cons] at hlen hrem; omega)
              (addDeltasToNet (miniBatchInner net lr ef (initEpochs bs) (s :: rest)
                (zeroWeightDeltas bufs)).1.weight_deltas net)
              (miniBatchInner net lr ef (initEpochs bs) (s :: rest)
                (zeroWeightDeltas bufs)).1 bs lr ef
            constructor
            · rw [ihl, addDeltasToNet_layers_len]
            · rw [iho, miniBatchInner_output_len]
              rfl
  intro samples net bufs bs lr ef
  exact H samples.length samples (le_refl _) net bufs bs lr ef

/-- C3 (amended): one iteration of the single-threaded trainer loop is
one single-batch call processing the whole dataset as consecutive
mini-batches, each applying the accumulated weight-delta buffer to the
live weights; after that full pass, the error statistics are recomputed
from scratch over the full evaluation set, depending only on the updated
network and the samples, and the completion predicate is evaluated once
with the incremented pass counter and those statistics; training stops
at the first evaluation that returns true. Statistics and completion are
thus per pass, with deltas applied per mini-batch within the pass. -/
theorem trainer_pass_spec (samples : List Sample) (completion : Nat → Stats → Bool)
    (mini_batch_size_fn : Nat → Option ℕ+) (learning_rate_fn : Nat → ℚ)
    (ef : ErrorFn) (fuel batch_num mbTotal : Nat) (net : Net)
    (bufs : TrainingBuffers)
    (hrows : bufs.output_buffers.length = net.layers.length)
    (hne : net.layers ≠ []) :
    trainLoop samples completion mini_batch_size_fn learning_rate_fn ef
        (fuel + 1) net bufs batch_num mbTotal =
      (if completion (batch_num + 1)
          (specErrorStats (train_backprop_single_batch net samples bufs
            (mini_batch_size_fn batch_num) (learning_rate_fn batch_num) ef).1
            ef samples) then
        some ((train_backprop_single_batch net samples bufs
            (mini_batch_size_fn batch_num) (learning_rate_fn batch_num) ef).1,
          specErrorStats (train_backprop_single_batch net samples bufs
            (mini_batch_size_fn batch_num) (learning_rate_fn batch_num) ef).1
            ef samples,
          batch_num + 1,
          mbTotal + (train_backprop_single_batch net samples bufs
            (mini_batch_size_fn batch_num) (learning_rate_fn batch_num) ef).2.2)
      else
        trainLoop samples completion mini_batch_size_fn learning_rate_fn ef fuel
          (train_backprop_single_batch net samples bufs
            (mini_batch_size_fn batch_num) (learning_rate_fn batch_num) ef).1
          (compute_error_for_batch (train_backprop_single_batch net samples bufs
              (mini_batch_size_fn batch_num) (learning_rate_fn batch_num) ef).1
            samples ef (train_backprop_single_batch net samples bufs
              (mini_batch_size_fn batch_num) (learning_rate_fn batch_num) ef).2.1)
          (batch_num + 1)
          (mbTotal + (train_backprop_single_batch net samples bufs
            (mini_batch_size_fn batch_num) (learning_rate_fn batch_num) ef).2.2)) := by
  obtain ⟨hl1, ho1⟩ := single_batch_len_invariants samples net bufs
    (mini_batch_size_fn batch_num) (learning_rate_fn batch_num) ef
  have hne1 : (train_backprop_single_batch net samples bufs
      (mini_batch_size_fn batch_num) (learning_rate_fn batch_num) ef).1.layers ≠ [] := by
    intro h
    apply hne
    apply List.eq_nil_of_length_eq_zero
    rw [← hl1, h]
    rfl
  have hro : (train_backprop_single_batch net samples bufs
      (mini_batch_size_fn batch_num) (learning_rate_fn batch_num) ef).2.1.output_buffers.length =
      (train_backprop_single_batch net samples bufs
        (mini_batch_size_fn batch_num) (learning_rate_fn batch_num) ef).1.layers.length := by
    rw [ho1, hrows, hl1]
  have hstats := compute_error_stats
    (train_backprop_single_batch net samples bufs
      (mini_batch_size_fn batch_num) (learning_rate_fn batch_num) ef).1
    ef hne1 samples
    (train_backprop_single_batch net samples bufs
      (mini_batch_size_fn batch_num) (learning_rate_fn batch_num) ef).2.1 hro
  simp only [trainLoop]
  rw [hstats]

/-- Concrete single-layer network used by the trainer claim analysis:
one input, one node, weight one, bias zero, identity activation. -/
def cexLayer : FullyConnectedNetLayer :=
  { input_size := 1, size := 1, weights := [1], biases := [0],
    activation_fn := { act := fun x => x, deriv := fun _ => 1 } }

/-- Concrete network wrapping cexLayer. -/
def cexNet : Net :=
  { input_size := 1, output_size := 1, max_buffer_size := 2,
    layers := [NetLayer.FullyConnected cexLayer] }

/-- C3 witness: the amended theorem applied at a concrete network, the
empty sample list, fuel one and an always-true completion predicate. -/
theorem trainer_pass_spec_witness :
    trainLoop [] (fun _ _ => true) (fun _ => none) (fun _ => 1) ErrorFn.SquaredError
        1 cexNet (TrainingBuffers.for_net cexNet) 0 0 =
      some (cexNet, specErrorStats cexNet ErrorFn.SquaredError [], 1, 0) := by
  have h := trainer_pass_spec [] (fun _ _ => true) (fun _ => none) (fun _ => 1)
    ErrorFn.SquaredError 0 0 0 cexNet (TrainingBuffers.for_net cexNet) rfl
    (by simp [cexNet])
  rw [h, single_batch_nil]
  simp

/-- C3 counterexample: with two samples and mini-batch size one, one
trainer pass runs two mini-batches (the instrumented count of
weight-delta applications is two) while the completion predicate is
evaluated once (the returned batch counter is one); an always-true
predicate stops only after both mini-batches, so statistics and
completion are not evaluated after every mini-batch as claimed. -/
theorem trainer_per_minibatch_cex :
    (train_backprop_single_threaded 1 cexNet
        [⟨[1], [0]⟩, ⟨[1], [0]⟩] (fun _ _ => true) (fun _ => some 1) (fun _ => 1)
        ErrorFn.SquaredError).map (fun r => (r.2.2.1, r.2.2.2)) = some (1, 2) ∧
      (1 : Nat) ≠ 2 := by
  constructor
  · unfold train_backprop_single_threaded
    simp only [trainLoop]
    rw [single_batch_cons, show initEpochs (some 1) = ((1 : Nat) : Int) from rfl,
      miniBatchInner_take_drop]
    simp only [List.take_succ_cons, List.take_zero, List.drop_succ_cons,
      List.drop_zero]
    rw [single_batch_cons, show initEpochs (some 1) = ((1 : Nat) : Int) from rfl,
      miniBatchInner_take_drop]
    simp only [List.take_succ_cons, List.take_zero, List.drop_succ_cons,
      List.drop_zero]
    rw [single_batch_nil]
    simp
  · omega

end RustNN
